import Mathlib

/-!
# Verification of the `bfk` Brainfuck interpreter core (`src/lib.rs`)

Shallow embedding of the library: the parameterizable symbol table
(`Language`), the raw (`Op`) and compressed (`CompressedOp`) instruction
sets, the parser (`parse`), the peephole compressor (`compress`) and the
execution engine (`run`), together with proofs about them.

Modelling conventions:
* Rust `u8` cells are `Nat` values combined with explicit `% 256`
  (`wadd`/`wsub` model `wrapping_add`/`wrapping_sub`).
* Rust panics (`expect` on an unmatched loop end, out-of-bounds slice
  indexing, `usize` underflow in `sub_ptr`) are modelled as `none` /
  `RunResult.fault`.
* The byte reader and writer are pure lists of byte values carried in the
  execution environment; reading at end-of-input yields 0 as in
  `read_char`.
* The source `run` is a `while` loop with no step bound; it is modelled
  with an explicit fuel argument, `RunResult.timeout` marking exhausted
  fuel (never an actual outcome of the Rust loop, which simply keeps
  going).
All indices provably stay in bounds where the Rust code indexes vectors;
`List.set` is used for the in-bounds updates.
-/

set_option maxHeartbeats 1000000

namespace Bfk

/-- 8-bit wrapping addition: models `u8::wrapping_add` on cell values. -/
def wadd (x n : Nat) : Nat := (x + n) % 256

/-- 8-bit wrapping subtraction: models `u8::wrapping_sub` on cell values
(for `x n < 256` this is `(x - n) mod 256` computed in the integers). -/
def wsub (x n : Nat) : Nat := (x + (256 - n % 256)) % 256

/-- Language to parse and execute (struct `Language`): the 8 role symbols. -/
structure Language where
  inc : Char
  dec : Char
  inc_ptr : Char
  dec_ptr : Char
  put_char : Char
  get_char : Char
  loop_start : Char
  loop_end : Char
deriving DecidableEq, Repr

/-- `Language::is_token`: the character equals one of the 8 role symbols. -/
def Language.is_token (l : Language) (ch : Char) : Bool :=
  l.inc == ch ||
    l.dec == ch ||
    l.inc_ptr == ch ||
    l.dec_ptr == ch ||
    l.put_char == ch ||
    l.get_char == ch ||
    l.loop_start == ch ||
    l.loop_end == ch

/-- `Language::make_from_string`: requires exactly 8 characters and assigns
them positionally (`inc, dec, inc_ptr, dec_ptr, get_char, put_char,
loop_start, loop_end` from indices 0..7). -/
def Language.make_from_string (s : List Char) : Option Language :=
  if s.length = 8 then
    match s with
    | c0 :: c1 :: c2 :: c3 :: c4 :: c5 :: c6 :: c7 :: _ =>
      some { inc := c0, dec := c1, inc_ptr := c2, dec_ptr := c3,
             get_char := c4, put_char := c5, loop_start := c6, loop_end := c7 }
    | _ => none
  else none

/-- The `Default` instance for `Language`: canonical brainfuck symbols. -/
def defaultLanguage : Language :=
  { inc := '+', dec := '-', inc_ptr := '>', dec_ptr := '<',
    get_char := ',', put_char := '.', loop_start := '[', loop_end := ']' }

/-- Raw operations (enum `Op`). -/
inductive Op where
  | Inc
  | Dec
  | IncPtr
  | DecPtr
  | PutChar
  | GetChar
  | LoopStart
  | LoopEnd
deriving DecidableEq, Repr

/-- Compressed operations (enum `CompressedOp`); the `Add`/`Sub` payload is
the `u8` count (a `Nat` that the compressor stores already reduced mod 256),
the `Back`/`Forward` payload is the `usize` step count. -/
inductive CompressedOp where
  | Add (n : Nat)
  | Sub (n : Nat)
  | Back (n : Nat)
  | Forward (n : Nat)
  | PutChar
  | GetChar
  | LoopStart
  | LoopEnd
deriving DecidableEq, Repr

/-- Executable operations plus jump table (struct `Code<T>`). -/
structure Code (T : Type) where
  ops : List T
  jump_table : List Nat
deriving DecidableEq, Repr

/-- Execution environment (struct `Environment`): memory `data`, program
counter `pc`, data `pointer`, and the byte reader/writer as lists. -/
structure Environment where
  data : List Nat
  pc : Nat
  pointer : Nat
  input : List Nat
  output : List Nat
deriving DecidableEq, Repr

/-- `Environment::add`: wrapping-add `n` to the cell under the pointer;
`none` models the panic of the out-of-bounds index `data[pointer]`. -/
def Environment.add (n : Nat) (e : Environment) : Option Environment :=
  match e.data[e.pointer]? with
  | some v => some { e with data := e.data.set e.pointer (wadd v n) }
  | none => none

/-- `Environment::sub`: wrapping-subtract `n` from the cell under the pointer. -/
def Environment.sub (n : Nat) (e : Environment) : Option Environment :=
  match e.data[e.pointer]? with
  | some v => some { e with data := e.data.set e.pointer (wsub v n) }
  | none => none

/-- `Environment::add_ptr`: unchecked pointer advance. -/
def Environment.add_ptr (n : Nat) (e : Environment) : Environment :=
  { e with pointer := e.pointer + n }

/-- `Environment::sub_ptr`: pointer retreat; `none` models the `usize`
underflow panic when `n` exceeds the pointer. -/
def Environment.sub_ptr (n : Nat) (e : Environment) : Option Environment :=
  if n ≤ e.pointer then some { e with pointer := e.pointer - n } else none

/-- `Environment::put_char`: write the cell under the pointer to the writer. -/
def Environment.put_char (e : Environment) : Option Environment :=
  match e.data[e.pointer]? with
  | some v => some { e with output := e.output ++ [v] }
  | none => none

/-- `Environment::read_char`: read one byte into the cell under the pointer,
0 at end of input; the indexed store panics when the pointer is out of
bounds. -/
def Environment.read_char (e : Environment) : Option Environment :=
  if e.pointer < e.data.length then
    some { e with data := e.data.set e.pointer (e.input.headD 0), input := e.input.tail }
  else none

/-- `Environment::advance_pc`. -/
def Environment.advance_pc (e : Environment) : Environment :=
  { e with pc := e.pc + 1 }

/-- `Runnable::process_loop_start`: jump past the loop when the cell is 0. -/
def process_loop_start (jt : List Nat) (e : Environment) : Option Environment :=
  match e.data[e.pointer]?, jt[e.pc]? with
  | some v, some t => if v = 0 then some { e with pc := t } else some (e.advance_pc)
  | _, _ => none

/-- `Runnable::process_loop_end`: jump back when the cell is nonzero. -/
def process_loop_end (jt : List Nat) (e : Environment) : Option Environment :=
  match e.data[e.pointer]?, jt[e.pc]? with
  | some v, some t => if v ≠ 0 then some { e with pc := t } else some (e.advance_pc)
  | _, _ => none

/-- `impl Runnable for Op`: one execution step of a raw operation. -/
def Op.run (op : Op) (code : Code Op) (e : Environment) : Option Environment :=
  match op with
  | .Inc => (e.add 1).map Environment.advance_pc
  | .Dec => (e.sub 1).map Environment.advance_pc
  | .IncPtr => some (e.add_ptr 1).advance_pc
  | .DecPtr => (e.sub_ptr 1).map Environment.advance_pc
  | .PutChar => e.put_char.map Environment.advance_pc
  | .GetChar => e.read_char.map Environment.advance_pc
  | .LoopStart => process_loop_start code.jump_table e
  | .LoopEnd => process_loop_end code.jump_table e

/-- `impl Runnable for CompressedOp`: one execution step of a compressed
operation. -/
def CompressedOp.run (op : CompressedOp) (code : Code CompressedOp) (e : Environment) :
    Option Environment :=
  match op with
  | .Add n => (e.add n).map Environment.advance_pc
  | .Sub n => (e.sub n).map Environment.advance_pc
  | .Back n => (e.sub_ptr n).map Environment.advance_pc
  | .Forward n => some (e.add_ptr n).advance_pc
  | .PutChar => e.put_char.map Environment.advance_pc
  | .GetChar => e.read_char.map Environment.advance_pc
  | .LoopStart => process_loop_start code.jump_table e
  | .LoopEnd => process_loop_end code.jump_table e

/-- One dispatch step of the engine on raw code: fetch `ops[pc]` and run it. -/
def stepOp (code : Code Op) (e : Environment) : Option Environment :=
  match code.ops[e.pc]? with
  | some op => op.run code e
  | none => none

/-- One dispatch step of the engine on compressed code. -/
def stepCompressed (code : Code CompressedOp) (e : Environment) : Option Environment :=
  match code.ops[e.pc]? with
  | some op => op.run code e
  | none => none

/-- Result of a bounded execution: normal completion (`pc` walked past the
end), a panic (`fault`), or exhausted fuel. -/
inductive RunResult where
  | done (e : Environment)
  | fault
  | timeout
deriving DecidableEq, Repr

/-- The `run` loop (`while len_ops > env.pc`), with explicit fuel; it is
parametric over the step function exactly as the Rust `run` is generic over
`Runnable`. -/
def runLoop {α : Type} (step : Code α → Environment → Option Environment)
    (code : Code α) (fuel : Nat) (e : Environment) : RunResult :=
  if e.pc < code.ops.length then
    match fuel with
    | 0 => .timeout
    | fuel' + 1 =>
      match step code e with
      | some e' => runLoop step code fuel' e'
      | none => .fault
  else .done e

/-- `run` on raw code. -/
def runOp (code : Code Op) (fuel : Nat) (e : Environment) : RunResult :=
  runLoop stepOp code fuel e

/-- `run` on compressed code. -/
def runCompressed (code : Code CompressedOp) (fuel : Nat) (e : Environment) : RunResult :=
  runLoop stepCompressed code fuel e

/-- The raw operation denoted by a source character, following the parser's
`if`/`else if` chain (first matching role wins); `none` for a character the
chain ignores. -/
def charToOp (language : Language) (c : Char) : Option Op :=
  if language.inc == c then some .Inc
  else if language.dec == c then some .Dec
  else if language.inc_ptr == c then some .IncPtr
  else if language.dec_ptr == c then some .DecPtr
  else if language.put_char == c then some .PutChar
  else if language.get_char == c then some .GetChar
  else if language.loop_start == c then some .LoopStart
  else if language.loop_end == c then some .LoopEnd
  else none

/-- The scan loop of `parse`: walks the enumerated token characters carrying
the built operations, the jump table and the matching stack; `none` models
the `expect("Unmatched loop end")` panic. -/
def parseLoop (language : Language) :
    List (Nat × Char) → List Op → List Nat → List Nat → Option (List Op × List Nat)
  | [], ops, jt, _stack => some (ops, jt)
  | (pc, c) :: rest, ops, jt, stack =>
    if language.inc == c then parseLoop language rest (ops ++ [.Inc]) jt stack
    else if language.dec == c then parseLoop language rest (ops ++ [.Dec]) jt stack
    else if language.inc_ptr == c then parseLoop language rest (ops ++ [.IncPtr]) jt stack
    else if language.dec_ptr == c then parseLoop language rest (ops ++ [.DecPtr]) jt stack
    else if language.put_char == c then parseLoop language rest (ops ++ [.PutChar]) jt stack
    else if language.get_char == c then parseLoop language rest (ops ++ [.GetChar]) jt stack
    else if language.loop_start == c then
      parseLoop language rest (ops ++ [.LoopStart]) jt (pc :: stack)
    else if language.loop_end == c then
      match stack with
      | [] => none
      | i :: s =>
        parseLoop language rest (ops ++ [.LoopEnd]) ((jt.set i (pc + 1)).set pc (i + 1)) s
    else parseLoop language rest ops jt stack

/-- `parse`: filter the source down to token characters, then scan them with
a zero-initialized jump table sized to the token count. -/
def parse (source : List Char) (language : Language) : Option (Code Op) :=
  let token_chars := source.filter language.is_token
  (parseLoop language token_chars.enum [] (List.replicate token_chars.length 0) []).map
    fun p => { ops := p.1, jump_table := p.2 }

/-- The run-merging test of the compressor: `last_op_ == Op::Inc || ... ||
last_op_ == Op::DecPtr`. -/
def accumCheck (op : Op) : Bool :=
  op == .Inc || op == .Dec || op == .IncPtr || op == .DecPtr

/-- The grouping loop of `compress`: carries `last_op`, `count` and the
accumulated `op_groups`. -/
def groupsLoop : List Op → Option Op → Nat → List (Op × Nat) →
    Option Op × Nat × List (Op × Nat)
  | [], lastOp, count, acc => (lastOp, count, acc)
  | op :: rest, some l, count, acc =>
    if l == op && accumCheck l then groupsLoop rest (some l) (count + 1) acc
    else groupsLoop rest (some op) 1 (acc ++ [(l, count)])
  | op :: rest, none, count, acc => groupsLoop rest (some op) count acc

/-- `op_groups` as computed by the first phase of `compress` (including the
final flush of the pending run). -/
def opGroups (ops : List Op) : List (Op × Nat) :=
  match groupsLoop ops none 1 [] with
  | (some l, count, acc) => acc ++ [(l, count)]
  | (none, _, acc) => acc

/-- The final flush of the grouping loop: append the pending run, if any. -/
def flushGroups : Option Op × Nat × List (Op × Nat) → List (Op × Nat)
  | (some l, count, acc) => acc ++ [(l, count)]
  | (none, _, acc) => acc

/-- The compressed operation emitted for one group; the `count as u8`
narrowing conversion is the explicit `% 256`. -/
def emitOne : Op × Nat → CompressedOp
  | (.Inc, count) => .Add (count % 256)
  | (.Dec, count) => .Sub (count % 256)
  | (.IncPtr, count) => .Forward count
  | (.DecPtr, count) => .Back count
  | (.PutChar, _) => .PutChar
  | (.GetChar, _) => .GetChar
  | (.LoopStart, _) => .LoopStart
  | (.LoopEnd, _) => .LoopEnd

/-- The emission loop of `compress`: walks the groups carrying the emitted
operations, the group-index program counter, the matching stack and the new
jump table; `none` models the `expect("Unmatched loop end")` panic. -/
def emitLoop : List (Op × Nat) → List CompressedOp → Nat → List Nat → List Nat →
    Option (List CompressedOp × List Nat)
  | [], cops, _pc, _stack, jt => some (cops, jt)
  | (op, count) :: rest, cops, pc, stack, jt =>
    match op with
    | .Inc => emitLoop rest (cops ++ [.Add (count % 256)]) (pc + 1) stack jt
    | .Dec => emitLoop rest (cops ++ [.Sub (count % 256)]) (pc + 1) stack jt
    | .IncPtr => emitLoop rest (cops ++ [.Forward count]) (pc + 1) stack jt
    | .DecPtr => emitLoop rest (cops ++ [.Back count]) (pc + 1) stack jt
    | .PutChar => emitLoop rest (cops ++ [.PutChar]) (pc + 1) stack jt
    | .GetChar => emitLoop rest (cops ++ [.GetChar]) (pc + 1) stack jt
    | .LoopStart => emitLoop rest (cops ++ [.LoopStart]) (pc + 1) (pc :: stack) jt
    | .LoopEnd =>
      match stack with
      | [] => none
      | i :: s =>
        emitLoop rest (cops ++ [.LoopEnd]) (pc + 1) s ((jt.set i (pc + 1)).set pc (i + 1))

/-- `compress`: group the raw operations, then emit one compressed operation
per group while rebuilding the jump table over the group indices. -/
def compress (code : Code Op) : Option (Code CompressedOp) :=
  let groups := opGroups code.ops
  (emitLoop groups [] 0 [] (List.replicate groups.length 0)).map
    fun p => { ops := p.1, jump_table := p.2 }

/-- The compressed operations alone (the `ops` component `compress` emits). -/
def emitOps (ops : List Op) : List CompressedOp := (opGroups ops).map emitOne

/-- Bracket kind of an instruction: loop start, loop end, or neither. -/
inductive Bk where
  | bo
  | bc
  | bn
deriving DecidableEq, Repr

/-- Bracket kind of a raw operation. -/
def opKind : Op → Bk
  | .LoopStart => .bo
  | .LoopEnd => .bc
  | _ => .bn

/-- Bracket kind of a compressed operation. -/
def copKind : CompressedOp → Bk
  | .LoopStart => .bo
  | .LoopEnd => .bc
  | _ => .bn

/-- Bracket kind of a source character under a language (via the parser's
dispatch chain). -/
def kindOf (language : Language) (c : Char) : Bk :=
  match charToOp language c with
  | some op => opKind op
  | none => .bn

/-- The bracket-kind sequence of the tokens of a source. -/
def tokenKinds (source : List Char) (language : Language) : List Bk :=
  (source.filter language.is_token).map (kindOf language)

/-- The jump-table construction common to `parse` and `compress`, abstracted
to bracket kinds: push open positions, pop on close and write the two table
entries, fail (`none`) on a close with an empty stack.  Returns the table
and the final stack. -/
def jtFold : List Bk → Nat → List Nat → List Nat → Option (List Nat × List Nat)
  | [], _, stack, jt => some (jt, stack)
  | .bo :: rest, pc, stack, jt => jtFold rest (pc + 1) (pc :: stack) jt
  | .bn :: rest, pc, stack, jt => jtFold rest (pc + 1) stack jt
  | .bc :: rest, pc, stack, jt =>
    match stack with
    | [] => none
    | i :: s => jtFold rest (pc + 1) s ((jt.set i (pc + 1)).set pc (i + 1))

/-- Number of loop-start kinds in a kind sequence. -/
def bkOpens (l : List Bk) : Nat := l.count .bo

/-- Number of loop-end kinds in a kind sequence. -/
def bkCloses (l : List Bk) : Nat := l.count .bc

/-- Every prefix has at least as many loop starts as loop ends (no unmatched
closer). -/
def BPre (l : List Bk) : Prop :=
  ∀ n, n ≤ l.length → bkCloses (l.take n) ≤ bkOpens (l.take n)

/-- Balanced loop delimiters: no unmatched closer and equal totals. -/
def BkBalanced (l : List Bk) : Prop := BPre l ∧ bkOpens l = bkCloses l

/-- The kinds strictly between positions `i` and `j`. -/
def seg (l : List Bk) (i j : Nat) : List Bk := (l.take j).drop (i + 1)

/-- Positions `i < j` form a matched loop-start/loop-end pair: the kinds
strictly between them are balanced with no unmatched closer. -/
def Matched (l : List Bk) (i j : Nat) : Prop :=
  i < j ∧ l[i]? = some .bo ∧ l[j]? = some .bc ∧
    bkOpens (seg l i j) = bkCloses (seg l i j) ∧ BPre (seg l i j)

/-- A well-formed source for a language: balanced loop delimiters among its
tokens. -/
def WellFormedSource (source : List Char) (language : Language) : Prop :=
  BkBalanced (tokenKinds source language)

instance (l : List Bk) : Decidable (BPre l) :=
  @decidable_of_iff _ _
    (by
      constructor
      · intro h n hn
        exact h n (List.mem_range.mpr (by omega))
      · intro h n hn
        have := List.mem_range.mp hn
        exact h n (by omega))
    (List.decidableBAll (fun n => bkCloses (l.take n) ≤ bkOpens (l.take n))
      (List.range (l.length + 1)))

instance (l : List Bk) : Decidable (BkBalanced l) :=
  decidable_of_iff (BPre l ∧ bkOpens l = bkCloses l) Iff.rfl

instance (source : List Char) (language : Language) :
    Decidable (WellFormedSource source language) :=
  decidable_of_iff (BkBalanced (tokenKinds source language)) Iff.rfl

/-- Bracket kind of a compressor group (the kind of its operation). -/
def groupKind (g : Op × Nat) : Bk := opKind g.1

/-- Invariant of the matching stack during `jtFold`: the stack holds the
positions of the currently open loop starts, youngest first; between
consecutive stack positions (and above the top, and below the bottom) the
kinds are balanced with no unmatched closer. -/
def StackOK (L : List Bk) : Nat → List Nat → Prop
  | t, [] => bkOpens (L.take t) = bkCloses (L.take t) ∧ BPre (L.take t)
  | t, i :: s => i < t ∧ L[i]? = some .bo ∧
      bkOpens (seg L i t) = bkCloses (seg L i t) ∧ BPre (seg L i t) ∧ StackOK L i s

/-- Position `p` belongs to a matched pair whose closer lies before `t`. -/
def PairedBelow (L : List Bk) (t p : Nat) : Prop :=
  ∃ i j, Matched L i j ∧ j < t ∧ (p = i ∨ p = j)

/-- Invariant of the jump table during `jtFold`: every pair already matched
has its two entries, and every position not yet paired still holds 0. -/
def JtOK (L : List Bk) (t : Nat) (jt : List Nat) : Prop :=
  (∀ i j, Matched L i j → j < t → jt[i]? = some (j + 1) ∧ jt[j]? = some (i + 1)) ∧
  (∀ p, p < L.length → ¬ PairedBelow L t p → jt[p]? = some 0)

/-- Flattening of the compressor's groups back to the raw operations. -/
def flatGroups (gs : List (Op × Nat)) : List Op :=
  (gs.map fun g => List.replicate g.2 g.1).flatten

/-- Raw index of the boundary in front of group `t`: the total count of the
first `t` groups. -/
def groupBound (gs : List (Op × Nat)) (t : Nat) : Nat :=
  ((gs.take t).map Prod.snd).sum

/-- The raw operation does not touch the cell under the pointer
(only the two pointer moves). -/
def needsCell : Op → Bool
  | .IncPtr => false
  | .DecPtr => false
  | _ => true

/-- The compressed operation accesses the cell under the pointer
(everything but the two pointer moves). -/
def needsCellC : CompressedOp → Bool
  | .Forward _ => false
  | .Back _ => false
  | _ => true

/-! ## Basic lemmas -/

theorem length_eight_shape {s : List Char} (h : s.length = 8) :
    ∃ c0 c1 c2 c3 c4 c5 c6 c7, s = [c0, c1, c2, c3, c4, c5, c6, c7] := by
  obtain _ | ⟨c0, s⟩ := s; · simp at h
  obtain _ | ⟨c1, s⟩ := s; · simp at h
  obtain _ | ⟨c2, s⟩ := s; · simp at h
  obtain _ | ⟨c3, s⟩ := s; · simp at h
  obtain _ | ⟨c4, s⟩ := s; · simp at h
  obtain _ | ⟨c5, s⟩ := s; · simp at h
  obtain _ | ⟨c6, s⟩ := s; · simp at h
  obtain _ | ⟨c7, s⟩ := s; · simp at h
  obtain _ | ⟨c8, s⟩ := s
  · exact ⟨c0, c1, c2, c3, c4, c5, c6, c7, rfl⟩
  · simp at h

theorem filter_is_token_idem (source : List Char) (language : Language) :
    (source.filter language.is_token).filter language.is_token =
      source.filter language.is_token := by
  rw [List.filter_filter]
  simp

/-! ## Claim theorems: symbol filtering, arithmetic, input, symbol table -/

/-- C4: for every source string and symbol table, parsing the source with
interleaved non-token characters produces the same instruction sequence and
jump table as parsing the same string with those non-token characters
removed. -/
theorem parse_filter_invariant (source : List Char) (language : Language) :
    parse (source.filter language.is_token) language = parse source language := by
  unfold parse
  rw [filter_is_token_idem]

/-- C5: `Inc`/`Add n` and `Dec`/`Sub n` act on the cell under the pointer by
modular 8-bit arithmetic and never signal overflow: a cell at 255 receiving
`Inc` becomes 0, a cell at 0 receiving `Dec` becomes 255, `Add n` produces
`(v + n) % 256`, and `Sub n` produces the modular inverse of adding `n`. -/
theorem arithmetic_wraparound (code : Code Op) (ccode : Code CompressedOp)
    (e : Environment) (v : Nat) (hv : e.data[e.pointer]? = some v) :
    (code.ops[e.pc]? = some .Inc → v = 255 →
      stepOp code e = some { e with data := e.data.set e.pointer 0, pc := e.pc + 1 }) ∧
    (code.ops[e.pc]? = some .Dec → v = 0 →
      stepOp code e = some { e with data := e.data.set e.pointer 255, pc := e.pc + 1 }) ∧
    (∀ n, ccode.ops[e.pc]? = some (.Add n) →
      stepCompressed ccode e =
        some { e with data := e.data.set e.pointer ((v + n) % 256), pc := e.pc + 1 }) ∧
    (∀ n, ccode.ops[e.pc]? = some (.Sub n) →
      stepCompressed ccode e =
        some { e with data := e.data.set e.pointer (wsub v n), pc := e.pc + 1 } ∧
        (wsub v n + n) % 256 = v % 256) := by
  refine ⟨?_, ?_, ?_, ?_⟩
  · intro hop h255
    subst h255
    simp [stepOp, hop, Op.run, Environment.add, hv, Environment.advance_pc, wadd]
  · intro hop h0
    subst h0
    simp [stepOp, hop, Op.run, Environment.sub, hv, Environment.advance_pc, wsub]
  · intro n hop
    simp [stepCompressed, hop, CompressedOp.run, Environment.add, hv,
      Environment.advance_pc, wadd]
  · intro n hop
    constructor
    · simp [stepCompressed, hop, CompressedOp.run, Environment.sub, hv,
        Environment.advance_pc]
    · unfold wsub
      rw [Nat.mod_add_mod]
      have hr : n % 256 < 256 := Nat.mod_lt _ (by omega)
      have hd := Nat.div_add_mod n 256
      have h2 : v + (256 - n % 256) + n = v + 256 * (n / 256 + 1) := by omega
      rw [h2, Nat.add_mul_mod_self_left]

/-- C6: executing `GetChar` (`ReadByte`) with the pointer in bounds reads one
byte from the reader into the cell under the pointer; at end of input the
cell is set to 0 and execution continues without error, on both the raw and
the compressed machine. -/
theorem read_byte_eof (code : Code Op) (ccode : Code CompressedOp) (e : Environment)
    (hp : e.pointer < e.data.length) :
    (code.ops[e.pc]? = some .GetChar →
      (∀ b rest, e.input = b :: rest →
        stepOp code e = some { e with
          data := e.data.set e.pointer b
          input := rest
          pc := e.pc + 1 }) ∧
      (e.input = [] →
        stepOp code e = some { e with
          data := e.data.set e.pointer 0
          input := []
          pc := e.pc + 1 })) ∧
    (ccode.ops[e.pc]? = some .GetChar →
      (∀ b rest, e.input = b :: rest →
        stepCompressed ccode e = some { e with
          data := e.data.set e.pointer b
          input := rest
          pc := e.pc + 1 }) ∧
      (e.input = [] →
        stepCompressed ccode e = some { e with
          data := e.data.set e.pointer 0
          input := []
          pc := e.pc + 1 })) := by
  constructor
  · intro hop
    constructor
    · intro b rest hin
      simp [stepOp, hop, Op.run, Environment.read_char, hp, hin, Environment.advance_pc]
    · intro hin
      simp [stepOp, hop, Op.run, Environment.read_char, hp, hin, Environment.advance_pc]
  · intro hop
    constructor
    · intro b rest hin
      simp [stepCompressed, hop, CompressedOp.run, Environment.read_char, hp, hin,
        Environment.advance_pc]
    · intro hin
      simp [stepCompressed, hop, CompressedOp.run, Environment.read_char, hp, hin,
        Environment.advance_pc]

/-- C9: symbol-table construction fails exactly when the input is not 8
symbols long (distinctness is not checked), and on success the symbols are
assigned positionally: increment, decrement, pointer forward, pointer back,
read byte (`get_char`), write byte (`put_char`), loop start, loop end. -/
theorem make_from_string_spec (s : List Char) :
    (Language.make_from_string s = none ↔ s.length ≠ 8) ∧
    (∀ c0 c1 c2 c3 c4 c5 c6 c7, s = [c0, c1, c2, c3, c4, c5, c6, c7] →
      Language.make_from_string s =
        some { inc := c0, dec := c1, inc_ptr := c2, dec_ptr := c3,
               get_char := c4, put_char := c5, loop_start := c6, loop_end := c7 }) := by
  constructor
  · constructor
    · intro hnone h8
      obtain ⟨c0, c1, c2, c3, c4, c5, c6, c7, rfl⟩ := length_eight_shape h8
      simp [Language.make_from_string] at hnone
    · intro h8
      simp [Language.make_from_string, h8]
  · intro c0 c1 c2 c3 c4 c5 c6 c7 hs
    subst hs
    rfl

/-- C10: the engine performs no bounds checking on pointer movement: a step
faults exactly when the current operation accesses the cell with the pointer
at or past the end of the buffer, or is a pointer retreat
(`DecPtr`/`Back n`) whose count exceeds the pointer (`usize` underflow);
in particular pointer moves themselves are unconditional (`IncPtr`,
`Forward n`, and in-range retreats never fault), and when the pointer stays
within bounds no operation faults. -/
theorem step_fault_characterization :
    (∀ (code : Code Op) (e : Environment) (op : Op),
      code.ops[e.pc]? = some op →
      code.jump_table.length = code.ops.length →
      (stepOp code e = none ↔
        (needsCell op = true ∧ e.data.length ≤ e.pointer) ∨
        (op = .DecPtr ∧ e.pointer = 0))) ∧
    (∀ (code : Code CompressedOp) (e : Environment) (op : CompressedOp),
      code.ops[e.pc]? = some op →
      code.jump_table.length = code.ops.length →
      (stepCompressed code e = none ↔
        (needsCellC op = true ∧ e.data.length ≤ e.pointer) ∨
        (∃ n, op = .Back n ∧ e.pointer < n))) := by
  constructor
  · intro code e op hop hlen
    have hpc : e.pc < code.ops.length := (List.getElem?_eq_some.mp hop).1
    obtain ⟨w, hjt⟩ : ∃ w, code.jump_table[e.pc]? = some w :=
      ⟨_, List.getElem?_eq_getElem (by omega)⟩
    cases op with
    | Inc =>
      simp only [stepOp, hop, Op.run, Environment.add, needsCell]
      rcases hd : e.data[e.pointer]? with _ | v
      · rw [List.getElem?_eq_none_iff] at hd
        simp [hd]
      · have := (List.getElem?_eq_some.mp hd).1
        simp
        omega
    | Dec =>
      simp only [stepOp, hop, Op.run, Environment.sub, needsCell]
      rcases hd : e.data[e.pointer]? with _ | v
      · rw [List.getElem?_eq_none_iff] at hd
        simp [hd]
      · have := (List.getElem?_eq_some.mp hd).1
        simp
        omega
    | IncPtr => simp [stepOp, hop, Op.run, needsCell]
    | DecPtr =>
      simp only [stepOp, hop, Op.run, Environment.sub_ptr, needsCell]
      by_cases h1 : 1 ≤ e.pointer
      · simp [h1]
        omega
      · simp [h1]
        omega
    | PutChar =>
      simp only [stepOp, hop, Op.run, Environment.put_char, needsCell]
      rcases hd : e.data[e.pointer]? with _ | v
      · rw [List.getElem?_eq_none_iff] at hd
        simp [hd]
      · have := (List.getElem?_eq_some.mp hd).1
        simp
        omega
    | GetChar =>
      simp only [stepOp, hop, Op.run, Environment.read_char, needsCell]
      by_cases h1 : e.pointer < e.data.length
      · simp [h1]
      · simp [h1]
        omega
    | LoopStart =>
      simp only [stepOp, hop, Op.run, process_loop_start, hjt, needsCell]
      rcases hd : e.data[e.pointer]? with _ | v
      · rw [List.getElem?_eq_none_iff] at hd
        simp [hd]
      · have := (List.getElem?_eq_some.mp hd).1
        by_cases hv : v = 0 <;> simp [hv] <;> omega
    | LoopEnd =>
      simp only [stepOp, hop, Op.run, process_loop_end, hjt, needsCell]
      rcases hd : e.data[e.pointer]? with _ | v
      · rw [List.getElem?_eq_none_iff] at hd
        simp [hd]
      · have := (List.getElem?_eq_some.mp hd).1
        by_cases hv : v = 0 <;> simp [hv] <;> omega
  · intro code e op hop hlen
    have hpc : e.pc < code.ops.length := (List.getElem?_eq_some.mp hop).1
    obtain ⟨w, hjt⟩ : ∃ w, code.jump_table[e.pc]? = some w :=
      ⟨_, List.getElem?_eq_getElem (by omega)⟩
    cases op with
    | Add n =>
      simp only [stepCompressed, hop, CompressedOp.run, Environment.add, needsCellC]
      rcases hd : e.data[e.pointer]? with _ | v
      · rw [List.getElem?_eq_none_iff] at hd
        simp [hd]
      · have := (List.getElem?_eq_some.mp hd).1
        simp
        omega
    | Sub n =>
      simp only [stepCompressed, hop, CompressedOp.run, Environment.sub, needsCellC]
      rcases hd : e.data[e.pointer]? with _ | v
      · rw [List.getElem?_eq_none_iff] at hd
        simp [hd]
      · have := (List.getElem?_eq_some.mp hd).1
        simp
        omega
    | Back n =>
      simp only [stepCompressed, hop, CompressedOp.run, Environment.sub_ptr, needsCellC]
      by_cases h1 : n ≤ e.pointer
      · simp [h1]
      · simp [h1]
        omega
    | Forward n => simp [stepCompressed, hop, CompressedOp.run, needsCellC]
    | PutChar =>
      simp only [stepCompressed, hop, CompressedOp.run, Environment.put_char, needsCellC]
      rcases hd : e.data[e.pointer]? with _ | v
      · rw [List.getElem?_eq_none_iff] at hd
        simp [hd]
      · have := (List.getElem?_eq_some.mp hd).1
        simp
        omega
    | GetChar =>
      simp only [stepCompressed, hop, CompressedOp.run, Environment.read_char, needsCellC]
      by_cases h1 : e.pointer < e.data.length
      · simp [h1]
      · simp [h1]
        omega
    | LoopStart =>
      simp only [stepCompressed, hop, CompressedOp.run, process_loop_start, hjt, needsCellC]
      rcases hd : e.data[e.pointer]? with _ | v
      · rw [List.getElem?_eq_none_iff] at hd
        simp [hd]
      · have := (List.getElem?_eq_some.mp hd).1
        by_cases hv : v = 0 <;> simp [hv] <;> omega
    | LoopEnd =>
      simp only [stepCompressed, hop, CompressedOp.run, process_loop_end, hjt, needsCellC]
      rcases hd : e.data[e.pointer]? with _ | v
      · rw [List.getElem?_eq_none_iff] at hd
        simp [hd]
      · have := (List.getElem?_eq_some.mp hd).1
        by_cases hv : v = 0 <;> simp [hv] <;> omega

/-! ## Bracket-matching theory for the jump-table construction -/

theorem bkOpens_append (a b : List Bk) : bkOpens (a ++ b) = bkOpens a + bkOpens b := by
  unfold bkOpens
  exact List.count_append ..

theorem bkCloses_append (a b : List Bk) : bkCloses (a ++ b) = bkCloses a + bkCloses b := by
  unfold bkCloses
  exact List.count_append ..

theorem bkOpens_cons (b : Bk) (l : List Bk) :
    bkOpens (b :: l) = bkOpens l + (if b = .bo then 1 else 0) := by
  unfold bkOpens
  rw [List.count_cons]
  cases b <;> simp

theorem bkCloses_cons (b : Bk) (l : List Bk) :
    bkCloses (b :: l) = bkCloses l + (if b = .bc then 1 else 0) := by
  unfold bkCloses
  rw [List.count_cons]
  cases b <;> simp

theorem BPre_nil : BPre [] := by
  intro n hn
  simp at hn
  simp [hn, bkOpens, bkCloses]

theorem BPre_total {l : List Bk} (h : BPre l) : bkCloses l ≤ bkOpens l := by
  have := h l.length le_rfl
  simpa using this

theorem bkOpens_take_append (l₁ l₂ : List Bk) (n : Nat) :
    bkOpens ((l₁ ++ l₂).take n) = bkOpens (l₁.take n) + bkOpens (l₂.take (n - l₁.length)) := by
  rw [List.take_append_eq_append_take, bkOpens_append]

theorem bkCloses_take_append (l₁ l₂ : List Bk) (n : Nat) :
    bkCloses ((l₁ ++ l₂).take n) = bkCloses (l₁.take n) + bkCloses (l₂.take (n - l₁.length)) := by
  rw [List.take_append_eq_append_take, bkCloses_append]

theorem seg_len {L : List Bk} {i j : Nat} (h1 : i < j) (h2 : j ≤ L.length) :
    (seg L i j).length = j - i - 1 := by
  simp [seg]
  omega

theorem seg_self_succ (L : List Bk) (t : Nat) : seg L t (t + 1) = [] := by
  apply List.drop_eq_nil_of_le
  simp

theorem take_snoc {L : List Bk} {t : Nat} {b : Bk} (hb : L[t]? = some b) :
    L.take (t + 1) = L.take t ++ [b] := by
  rw [List.take_succ, hb]
  rfl

theorem seg_snoc {L : List Bk} {i t : Nat} {b : Bk} (hb : L[t]? = some b) (h1 : i < t) :
    seg L i t ++ [b] = seg L i (t + 1) := by
  have ht : t < L.length := (List.getElem?_eq_some.mp hb).1
  unfold seg
  rw [take_snoc hb, List.drop_append_of_le_length (by simp; omega)]

theorem take_decomp {L : List Bk} {i t : Nat} {b : Bk} (hb : L[i]? = some b)
    (h1 : i < t) (h2 : t ≤ L.length) :
    L.take t = L.take i ++ b :: seg L i t := by
  obtain ⟨hi, hbv⟩ := List.getElem?_eq_some.mp hb
  have hl : i < (L.take t).length := by simp; omega
  have hdrop := List.drop_eq_getElem_cons hl
  have hval : (L.take t)[i] = b := by
    rw [List.getElem_take]
    exact hbv
  calc L.take t = (L.take t).take i ++ (L.take t).drop i := (List.take_append_drop i _).symm
  _ = L.take i ++ b :: seg L i t := by
      rw [List.take_take, min_eq_left (Nat.le_of_lt h1), hdrop, hval]
      rfl

theorem seg_split {L : List Bk} {i m j : Nat} {b : Bk} (hb : L[m]? = some b)
    (h1 : i < m) (h2 : m < j) (h3 : j ≤ L.length) :
    seg L i j = seg L i m ++ b :: seg L m j := by
  have hm : m < L.length := (List.getElem?_eq_some.mp hb).1
  show (L.take j).drop (i + 1) = _
  rw [take_decomp hb h2 h3, List.drop_append_of_le_length (by simp; omega)]
  rfl

theorem seg_take {L : List Bk} {i m t : Nat} (h1 : i < m) (h2 : m < t) (h3 : t ≤ L.length) :
    (seg L i t).take (m - i) = seg L i (m + 1) := by
  show ((L.take t).drop (i + 1)).take (m - i) = (L.take (m + 1)).drop (i + 1)
  rw [List.take_drop]
  have hidx : i + 1 + (m - i) = m + 1 := by omega
  rw [hidx, List.take_take, min_eq_left (by omega)]

theorem bkOpens_nil : bkOpens [] = 0 := rfl

theorem bkCloses_nil : bkCloses [] = 0 := rfl

theorem balanced_sandwich {A B : List Bk}
    (hA : bkOpens A = bkCloses A) (hpA : BPre A)
    (hB : bkOpens B = bkCloses B) (hpB : BPre B) :
    bkOpens ((A ++ .bo :: B) ++ [.bc]) = bkCloses ((A ++ .bo :: B) ++ [.bc]) ∧
    BPre ((A ++ .bo :: B) ++ [.bc]) := by
  have hobc : bkOpens [Bk.bc] = 0 := by decide
  have hcbc : bkCloses [Bk.bc] = 1 := by decide
  constructor
  · rw [bkOpens_append, bkCloses_append, bkOpens_append, bkCloses_append,
      bkOpens_cons, bkCloses_cons, hobc, hcbc]
    simp
    omega
  · intro n hn
    have hnlen : n ≤ A.length + 1 + B.length + 1 := by
      simp at hn
      omega
    rw [bkOpens_take_append, bkCloses_take_append,
      bkOpens_take_append, bkCloses_take_append]
    rcases Nat.eq_zero_or_pos (n - A.length) with hm | hm
    · have hout : n - (A ++ Bk.bo :: B).length = 0 := by
        simp
        omega
      rw [hm, hout]
      simp only [List.take_zero, bkOpens_nil, bkCloses_nil]
      have h1 := hpA n (by omega)
      omega
    · have hA_take : A.take n = A := List.take_of_length_le (by omega)
      obtain ⟨k, hk⟩ : ∃ k, n - A.length = k + 1 := ⟨n - A.length - 1, by omega⟩
      have hout : n - (A ++ Bk.bo :: B).length = k - B.length := by
        simp
        omega
      rw [hk, hout, hA_take, List.take_succ_cons, bkOpens_cons, bkCloses_cons]
      have hifo : (if Bk.bo = Bk.bo then 1 else 0) = 1 := by decide
      have hifc : (if (Bk.bo : Bk) = Bk.bc then 1 else 0) = 0 := by decide
      rw [hifo, hifc]
      rcases Nat.eq_zero_or_pos (k - B.length) with hkB | hkB
      · rw [hkB, List.take_zero, bkOpens_nil, bkCloses_nil]
        have h1 := hpB k (by omega)
        omega
      · have hB_take : B.take k = B := List.take_of_length_le (by omega)
        have hbc_take : [Bk.bc].take (k - B.length) = [Bk.bc] :=
          List.take_of_length_le (by simp; omega)
        rw [hB_take, hbc_take, hobc, hcbc]
        omega

theorem matched_inside_top {L : List Bk} {i b t : Nat}
    (hM : Matched L i b) (hbt : b < t) (ht : t ≤ L.length)
    (hpre : BPre (seg L i t)) : False := by
  obtain ⟨hib, hbo, hbc, hcnt, hpre'⟩ := hM
  have h1 : (seg L i t).take (b - i) = seg L i (b + 1) := seg_take hib hbt ht
  have h2 : seg L i b ++ [.bc] = seg L i (b + 1) := seg_snoc hbc hib
  have h3 := hpre (b - i) (by rw [seg_len (by omega) ht]; omega)
  rw [h1, ← h2, bkOpens_append, bkCloses_append] at h3
  have h4 : bkOpens [Bk.bc] = 0 := by decide
  have h5 : bkCloses [Bk.bc] = 1 := by decide
  omega

theorem matched_right_lt {L : List Bk} {a a' j : Nat} (hlt : a < a')
    (h1 : Matched L a j) (h2 : Matched L a' j) : False := by
  obtain ⟨haj, hao, hjc, hacnt, hapre⟩ := h1
  obtain ⟨haj', hao', hjc', hacnt', hapre'⟩ := h2
  have hj_len : j ≤ L.length := by
    have := (List.getElem?_eq_some.mp hjc).1
    omega
  have hsplit := seg_split hao' hlt haj' hj_len
  have hlen : (seg L a a').length = a' - a - 1 := seg_len hlt (by omega)
  have h3 := hapre (seg L a a').length (by
    rw [hlen, seg_len haj hj_len]
    omega)
  rw [hsplit, List.take_left] at h3
  have hcounts : bkOpens (seg L a j) = bkOpens (seg L a a') + 1 + bkOpens (seg L a' j) ∧
      bkCloses (seg L a j) = bkCloses (seg L a a') + bkCloses (seg L a' j) := by
    rw [hsplit, bkOpens_append, bkCloses_append, bkOpens_cons, bkCloses_cons]
    constructor <;> simp <;> omega
  omega

theorem matched_right_unique {L : List Bk} {a a' j : Nat}
    (h1 : Matched L a j) (h2 : Matched L a' j) : a = a' := by
  rcases lt_trichotomy a a' with h | h | h
  · exact absurd (matched_right_lt h h1 h2) (by simp)
  · exact h
  · exact absurd (matched_right_lt h h2 h1) (by simp)

theorem getElem?_set_self_of_lt {α : Type} {l : List α} {i : Nat} {a : α}
    (h : i < l.length) : (l.set i a)[i]? = some a := by
  rw [List.getElem?_set_self]
  simp [h]

theorem matched_close_position {L : List Bk} {i j : Nat} (h : Matched L i j) :
    j < L.length := (List.getElem?_eq_some.mp h.2.2.1).1

theorem matched_open_position {L : List Bk} {i j : Nat} (h : Matched L i j) :
    i < L.length := (List.getElem?_eq_some.mp h.2.1).1

theorem BPre_snoc {X : List Bk} {b : Bk} (hpre : BPre X)
    (h : bkCloses X + bkCloses [b] ≤ bkOpens X + bkOpens [b]) : BPre (X ++ [b]) := by
  intro n hn
  rw [bkOpens_take_append, bkCloses_take_append]
  rcases Nat.eq_zero_or_pos (n - X.length) with hm | hm
  · rw [hm]
    simp only [List.take_zero, bkOpens_nil, bkCloses_nil]
    have := hpre n (by omega)
    omega
  · have hX : X.take n = X := List.take_of_length_le (by omega)
    have hb : [b].take (n - X.length) = [b] := List.take_of_length_le (by simp; omega)
    rw [hX, hb]
    omega

theorem stackOK_bn {L : List Bk} {t : Nat} {s : List Nat}
    (hb : L[t]? = some .bn) (h : StackOK L t s) : StackOK L (t + 1) s := by
  have hcb : bkCloses [Bk.bn] = 0 := by decide
  have hob : bkOpens [Bk.bn] = 0 := by decide
  cases s with
  | nil =>
    simp only [StackOK] at h ⊢
    obtain ⟨hcnt, hpre⟩ := h
    rw [take_snoc hb, bkOpens_append, bkCloses_append, hcb, hob]
    exact ⟨by omega, BPre_snoc hpre (by omega)⟩
  | cons i s' =>
    simp only [StackOK] at h ⊢
    obtain ⟨hit, hio, hcnt, hpre, hrest⟩ := h
    rw [← seg_snoc hb hit, bkOpens_append, bkCloses_append, hcb, hob]
    exact ⟨by omega, hio, by omega, BPre_snoc hpre (by omega), hrest⟩

theorem stackOK_push {L : List Bk} {t : Nat} {s : List Nat}
    (hb : L[t]? = some .bo) (h : StackOK L t s) : StackOK L (t + 1) (t :: s) := by
  simp only [StackOK]
  refine ⟨by omega, hb, ?_, ?_, h⟩
  · rw [seg_self_succ, bkOpens_nil, bkCloses_nil]
  · rw [seg_self_succ]
    exact BPre_nil

theorem seg_pop_decomp {L : List Bk} {i' i t : Nat} {b c : Bk}
    (hbi : L[i]? = some b) (hbt : L[t]? = some c) (h1 : i' < i) (h2 : i < t) :
    seg L i' (t + 1) = (seg L i' i ++ b :: seg L i t) ++ [c] := by
  have ht : t < L.length := (List.getElem?_eq_some.mp hbt).1
  have hi : i < L.length := (List.getElem?_eq_some.mp hbi).1
  show (L.take (t + 1)).drop (i' + 1) = _
  rw [take_snoc hbt, take_decomp hbi h2 (by omega),
    List.drop_append_of_le_length (by simp; omega),
    List.drop_append_of_le_length (by simp; omega)]
  rfl

theorem stackOK_pop {L : List Bk} {t i : Nat} {s : List Nat}
    (hb : L[t]? = some .bc) (h : StackOK L t (i :: s)) : StackOK L (t + 1) s := by
  simp only [StackOK] at h
  obtain ⟨hit, hio, hcnt, hpre, hrest⟩ := h
  have ht_len : t < L.length := (List.getElem?_eq_some.mp hb).1
  cases s with
  | nil =>
    simp only [StackOK] at hrest ⊢
    obtain ⟨hcnt', hpre'⟩ := hrest
    have hdecomp : L.take (t + 1) = (L.take i ++ .bo :: seg L i t) ++ [.bc] := by
      rw [take_snoc hb, take_decomp hio hit (by omega)]
    rw [hdecomp]
    exact balanced_sandwich hcnt' hpre' hcnt hpre
  | cons i' s'' =>
    simp only [StackOK] at hrest ⊢
    obtain ⟨hi'i, hi'o, hcnt', hpre', hrest'⟩ := hrest
    have hdecomp : seg L i' (t + 1) = (seg L i' i ++ .bo :: seg L i t) ++ [.bc] :=
      seg_pop_decomp hio hb hi'i hit
    rw [hdecomp]
    obtain ⟨hc, hp⟩ := balanced_sandwich hcnt' hpre' hcnt hpre
    exact ⟨by omega, hi'o, hc, hp, hrest'⟩

theorem jtOK_not_close {L : List Bk} {t : Nat} {jt : List Nat} {b : Bk}
    (hb : L[t]? = some b) (hbc : b ≠ .bc) (h : JtOK L t jt) : JtOK L (t + 1) jt := by
  obtain ⟨h1, h2⟩ := h
  constructor
  · intro i j hM hj
    rcases Nat.lt_or_ge j t with hjt | hjt
    · exact h1 i j hM hjt
    · have hj_eq : j = t := by omega
      subst hj_eq
      rw [hM.2.2.1] at hb
      exact absurd (Option.some.inj hb).symm hbc
  · intro p hp hnp
    apply h2 p hp
    rintro ⟨i, j, hM, hj, hpij⟩
    exact hnp ⟨i, j, hM, by omega, hpij⟩

theorem jtOK_pop {L : List Bk} {t i : Nat} {jt : List Nat}
    (hlen : jt.length = L.length)
    (hio : L[i]? = some .bo) (htc : L[t]? = some .bc) (hit : i < t)
    (hseg_cnt : bkOpens (seg L i t) = bkCloses (seg L i t)) (hseg_pre : BPre (seg L i t))
    (h : JtOK L t jt) :
    JtOK L (t + 1) ((jt.set i (t + 1)).set t (i + 1)) := by
  have ht_len : t < L.length := (List.getElem?_eq_some.mp htc).1
  have hi_len : i < L.length := (List.getElem?_eq_some.mp hio).1
  have hM_it : Matched L i t := ⟨hit, hio, htc, hseg_cnt, hseg_pre⟩
  have hi_unpaired : ¬ PairedBelow L t i := by
    rintro ⟨a, b, hM, hb, hpe⟩
    rcases hpe with rfl | rfl
    · exact matched_inside_top hM hb (by omega) hseg_pre
    · have hcontra := hM.2.2.1
      rw [hio] at hcontra
      exact Bk.noConfusion (Option.some.inj hcontra)
  obtain ⟨h1, h2⟩ := h
  constructor
  · intro a b hM hb
    rcases Nat.lt_or_ge b t with hbt | hbt
    · have hold := h1 a b hM hbt
      have hai : a ≠ i := by
        rintro rfl
        exact hi_unpaired ⟨a, b, hM, hbt, Or.inl rfl⟩
      have hat : a ≠ t := by
        have := hM.1
        omega
      have hbi : b ≠ i := by
        rintro rfl
        have hcontra := hM.2.2.1
        rw [hio] at hcontra
        exact Bk.noConfusion (Option.some.inj hcontra)
      have hbt' : b ≠ t := by omega
      rw [List.getElem?_set_ne (Ne.symm hat), List.getElem?_set_ne (Ne.symm hai),
        List.getElem?_set_ne (Ne.symm hbt'), List.getElem?_set_ne (Ne.symm hbi)]
      exact hold
    · have hb_eq : b = t := by omega
      subst hb_eq
      have ha : a = i := matched_right_unique hM hM_it
      subst ha
      have hab : a < b := hM.1
      constructor
      · rw [List.getElem?_set_ne (by omega : b ≠ a)]
        exact getElem?_set_self_of_lt (by omega)
      · exact getElem?_set_self_of_lt (by simp; omega)
  · intro p hp hnp
    have hpi : p ≠ i := by
      rintro rfl
      exact hnp ⟨p, t, hM_it, by omega, Or.inl rfl⟩
    have hpt : p ≠ t := by
      rintro rfl
      exact hnp ⟨i, p, hM_it, by omega, Or.inr rfl⟩
    rw [List.getElem?_set_ne (Ne.symm hpt), List.getElem?_set_ne (Ne.symm hpi)]
    apply h2 p hp
    rintro ⟨a, b, hM, hb, hpe⟩
    exact hnp ⟨a, b, hM, by omega, hpe⟩

theorem jtFold_invariant {L : List Bk} :
    ∀ (rest : List Bk) (t : Nat) (s jt : List Nat) (r : List Nat × List Nat),
    L.drop t = rest → t ≤ L.length → jt.length = L.length →
    StackOK L t s → JtOK L t jt →
    jtFold rest t s jt = some r →
    JtOK L L.length r.1 ∧ StackOK L L.length r.2 ∧ r.1.length = L.length := by
  intro rest
  induction rest with
  | nil =>
    intro t s jt r hdrop ht hlen hst hjt hfold
    have ht_eq : t = L.length := by
      have := congrArg List.length hdrop
      simp at this
      omega
    subst ht_eq
    simp only [jtFold] at hfold
    cases hfold
    exact ⟨hjt, hst, hlen⟩
  | cons b rest ih =>
    intro t s jt r hdrop ht hlen hst hjt hfold
    have ht_lt : t < L.length := by
      have := congrArg List.length hdrop
      simp at this
      omega
    have hcons := List.drop_eq_getElem_cons ht_lt
    rw [hdrop] at hcons
    have hb : L[t]? = some b := by
      rw [List.getElem?_eq_getElem ht_lt, (List.cons.injEq ..).mp hcons.symm |>.1]
    have hdrop' : L.drop (t + 1) = rest := ((List.cons.injEq ..).mp hcons.symm).2
    cases b with
    | bn =>
      simp only [jtFold] at hfold
      exact ih (t + 1) s jt r hdrop' (by omega) hlen (stackOK_bn hb hst)
        (jtOK_not_close hb (by simp) hjt) hfold
    | bo =>
      simp only [jtFold] at hfold
      exact ih (t + 1) (t :: s) jt r hdrop' (by omega) hlen (stackOK_push hb hst)
        (jtOK_not_close hb (by simp) hjt) hfold
    | bc =>
      simp only [jtFold] at hfold
      cases s with
      | nil => cases hfold
      | cons i s' =>
        have hst' := hst
        simp only [StackOK] at hst'
        obtain ⟨hit, hio, hcnt, hpre, hrest⟩ := hst'
        exact ih (t + 1) s' _ r hdrop' (by omega) (by simp [hlen])
          (stackOK_pop hb hst)
          (jtOK_pop hlen hio hb hit hcnt hpre hjt) hfold

theorem jtFold_characterization {L : List Bk} {jt s : List Nat}
    (h : jtFold L 0 [] (List.replicate L.length 0) = some (jt, s)) :
    (∀ i j, Matched L i j → jt[i]? = some (j + 1) ∧ jt[j]? = some (i + 1)) ∧
    (∀ p, p < L.length → ¬ PairedBelow L L.length p → jt[p]? = some 0) ∧
    jt.length = L.length := by
  have h0 : StackOK L 0 [] := by
    simp only [StackOK, List.take_zero]
    exact ⟨rfl, BPre_nil⟩
  have hj0 : JtOK L 0 (List.replicate L.length 0) := by
    constructor
    · intro i j _ hj
      omega
    · intro p hp _
      rw [List.getElem?_replicate]
      simp [hp]
  obtain ⟨hJ, hS, hL⟩ := jtFold_invariant L 0 [] (List.replicate L.length 0) (jt, s)
    rfl (by omega) (by simp) h0 hj0 h
  exact ⟨fun i j hM => hJ.1 i j hM (matched_close_position hM), hJ.2, hL⟩

theorem jtFold_some_BPre :
    ∀ (ks : List Bk) (pc : Nat) (s jt : List Nat) (r : List Nat × List Nat),
    jtFold ks pc s jt = some r →
    ∀ n, n ≤ ks.length → bkCloses (ks.take n) ≤ bkOpens (ks.take n) + s.length := by
  intro ks
  induction ks with
  | nil =>
    intro pc s jt r _ n hn
    simp at hn
    simp [hn, bkOpens_nil, bkCloses_nil]
  | cons b rest ih =>
    intro pc s jt r hfold n hn
    match n with
    | 0 => simp [bkOpens_nil, bkCloses_nil]
    | m + 1 =>
      rw [List.take_succ_cons, bkOpens_cons, bkCloses_cons]
      cases b with
      | bn =>
        simp only [jtFold] at hfold
        have := ih (pc + 1) s jt r hfold m (by simpa using hn)
        simp
        omega
      | bo =>
        simp only [jtFold] at hfold
        have := ih (pc + 1) (pc :: s) jt r hfold m (by simpa using hn)
        simp at this ⊢
        omega
      | bc =>
        simp only [jtFold] at hfold
        cases s with
        | nil => cases hfold
        | cons i s' =>
          have := ih (pc + 1) s' _ r hfold m (by simpa using hn)
          simp at this ⊢
          omega

theorem jtFold_none_bad :
    ∀ (ks : List Bk) (pc : Nat) (s jt : List Nat),
    jtFold ks pc s jt = none →
    ∃ n, n ≤ ks.length ∧ bkOpens (ks.take n) + s.length < bkCloses (ks.take n) := by
  intro ks
  induction ks with
  | nil =>
    intro pc s jt hfold
    simp [jtFold] at hfold
  | cons b rest ih =>
    intro pc s jt hfold
    cases b with
    | bn =>
      simp only [jtFold] at hfold
      obtain ⟨n, hn, hbad⟩ := ih (pc + 1) s jt hfold
      refine ⟨n + 1, by simpa using hn, ?_⟩
      rw [List.take_succ_cons, bkOpens_cons, bkCloses_cons]
      simp
      omega
    | bo =>
      simp only [jtFold] at hfold
      obtain ⟨n, hn, hbad⟩ := ih (pc + 1) (pc :: s) jt hfold
      refine ⟨n + 1, by simpa using hn, ?_⟩
      rw [List.take_succ_cons, bkOpens_cons, bkCloses_cons]
      simp at hbad ⊢
      omega
    | bc =>
      simp only [jtFold] at hfold
      cases s with
      | nil =>
        refine ⟨1, by simp, ?_⟩
        simp [List.take_succ_cons, bkOpens_cons, bkCloses_cons, bkOpens_nil, bkCloses_nil]
      | cons i s' =>
        obtain ⟨n, hn, hbad⟩ := ih (pc + 1) s' _ hfold
        refine ⟨n + 1, by simpa using hn, ?_⟩
        rw [List.take_succ_cons, bkOpens_cons, bkCloses_cons]
        simp at hbad ⊢
        omega

/-! ## Bridging the parser and compressor to the abstract jump-table fold -/

theorem parseLoop_eq_jtFold (language : Language) :
    ∀ (chars : List Char) (t : Nat) (ops : List Op) (jt stack : List Nat),
    parseLoop language (List.enumFrom t chars) ops jt stack =
      (jtFold (chars.map (kindOf language)) t stack jt).map
        (fun p => (ops ++ chars.filterMap (charToOp language), p.1)) := by
  intro chars
  induction chars with
  | nil =>
    intro t ops jt stack
    simp [parseLoop, jtFold]
  | cons c rest ih =>
    intro t ops jt stack
    rw [List.enumFrom_cons]
    by_cases h1 : language.inc = c
    · have hb1 : (language.inc == c) = true := beq_iff_eq.mpr h1
      have hcto : charToOp language c = some .Inc := by simp [charToOp, hb1]
      have hkind : kindOf language c = .bn := by simp [kindOf, hcto, opKind]
      simp only [parseLoop, hb1, if_true]
      rw [ih]
      simp [jtFold, hkind, hcto]
    · have hb1 : (language.inc == c) = false := by simp [h1]
      by_cases h2 : language.dec = c
      · have hb2 : (language.dec == c) = true := beq_iff_eq.mpr h2
        have hcto : charToOp language c = some .Dec := by simp [charToOp, hb1, hb2]
        have hkind : kindOf language c = .bn := by simp [kindOf, hcto, opKind]
        simp only [parseLoop, hb1, hb2, if_true, Bool.false_eq_true, if_false]
        rw [ih]
        simp [jtFold, hkind, hcto]
      · have hb2 : (language.dec == c) = false := by simp [h2]
        by_cases h3 : language.inc_ptr = c
        · have hb3 : (language.inc_ptr == c) = true := beq_iff_eq.mpr h3
          have hcto : charToOp language c = some .IncPtr := by
            simp [charToOp, hb1, hb2, hb3]
          have hkind : kindOf language c = .bn := by simp [kindOf, hcto, opKind]
          simp only [parseLoop, hb1, hb2, hb3, if_true, Bool.false_eq_true, if_false]
          rw [ih]
          simp [jtFold, hkind, hcto]
        · have hb3 : (language.inc_ptr == c) = false := by simp [h3]
          by_cases h4 : language.dec_ptr = c
          · have hb4 : (language.dec_ptr == c) = true := beq_iff_eq.mpr h4
            have hcto : charToOp language c = some .DecPtr := by
              simp [charToOp, hb1, hb2, hb3, hb4]
            have hkind : kindOf language c = .bn := by simp [kindOf, hcto, opKind]
            simp only [parseLoop, hb1, hb2, hb3, hb4, if_true, Bool.false_eq_true, if_false]
            rw [ih]
            simp [jtFold, hkind, hcto]
          · have hb4 : (language.dec_ptr == c) = false := by simp [h4]
            by_cases h5 : language.put_char = c
            · have hb5 : (language.put_char == c) = true := beq_iff_eq.mpr h5
              have hcto : charToOp language c = some .PutChar := by
                simp [charToOp, hb1, hb2, hb3, hb4, hb5]
              have hkind : kindOf language c = .bn := by simp [kindOf, hcto, opKind]
              simp only [parseLoop, hb1, hb2, hb3, hb4, hb5, if_true,
                Bool.false_eq_true, if_false]
              rw [ih]
              simp [jtFold, hkind, hcto]
            · have hb5 : (language.put_char == c) = false := by simp [h5]
              by_cases h6 : language.get_char = c
              · have hb6 : (language.get_char == c) = true := beq_iff_eq.mpr h6
                have hcto : charToOp language c = some .GetChar := by
                  simp [charToOp, hb1, hb2, hb3, hb4, hb5, hb6]
                have hkind : kindOf language c = .bn := by simp [kindOf, hcto, opKind]
                simp only [parseLoop, hb1, hb2, hb3, hb4, hb5, hb6, if_true,
                  Bool.false_eq_true, if_false]
                rw [ih]
                simp [jtFold, hkind, hcto]
              · have hb6 : (language.get_char == c) = false := by simp [h6]
                by_cases h7 : language.loop_start = c
                · have hb7 : (language.loop_start == c) = true := beq_iff_eq.mpr h7
                  have hcto : charToOp language c = some .LoopStart := by
                    simp [charToOp, hb1, hb2, hb3, hb4, hb5, hb6, hb7]
                  have hkind : kindOf language c = .bo := by simp [kindOf, hcto, opKind]
                  simp only [parseLoop, hb1, hb2, hb3, hb4, hb5, hb6, hb7, if_true,
                    Bool.false_eq_true, if_false]
                  rw [ih]
                  simp [jtFold, hkind, hcto]
                · have hb7 : (language.loop_start == c) = false := by simp [h7]
                  by_cases h8 : language.loop_end = c
                  · have hb8 : (language.loop_end == c) = true := beq_iff_eq.mpr h8
                    have hcto : charToOp language c = some .LoopEnd := by
                      simp [charToOp, hb1, hb2, hb3, hb4, hb5, hb6, hb7, hb8]
                    have hkind : kindOf language c = .bc := by
                      simp [kindOf, hcto, opKind]
                    simp only [parseLoop, hb1, hb2, hb3, hb4, hb5, hb6, hb7, hb8,
                      if_true, Bool.false_eq_true, if_false]
                    cases stack with
                    | nil => simp [jtFold, hkind, hcto]
                    | cons i s =>
                      dsimp only
                      rw [ih]
                      simp [jtFold, hkind, hcto]
                  · have hb8 : (language.loop_end == c) = false := by simp [h8]
                    have hcto : charToOp language c = none := by
                      simp [charToOp, hb1, hb2, hb3, hb4, hb5, hb6, hb7, hb8]
                    have hkind : kindOf language c = .bn := by simp [kindOf, hcto]
                    simp only [parseLoop, hb1, hb2, hb3, hb4, hb5, hb6, hb7, hb8,
                      Bool.false_eq_true, if_false]
                    rw [ih]
                    simp [jtFold, hkind, hcto]

theorem parse_eq (source : List Char) (language : Language) :
    parse source language =
      (jtFold (tokenKinds source language) 0 []
        (List.replicate (source.filter language.is_token).length 0)).map
        (fun p =>
          { ops := (source.filter language.is_token).filterMap (charToOp language)
            jump_table := p.1 }) := by
  unfold parse tokenKinds
  dsimp only
  rw [show (source.filter language.is_token).enum =
    List.enumFrom 0 (source.filter language.is_token) from rfl]
  rw [parseLoop_eq_jtFold]
  rw [Option.map_map]
  rfl

theorem emitLoop_eq_jtFold :
    ∀ (gs : List (Op × Nat)) (cops : List CompressedOp) (pc : Nat) (stack jt : List Nat),
    emitLoop gs cops pc stack jt =
      (jtFold (gs.map groupKind) pc stack jt).map
        (fun p => (cops ++ gs.map emitOne, p.1)) := by
  intro gs
  induction gs with
  | nil =>
    intro cops pc stack jt
    simp [emitLoop, jtFold]
  | cons g rest ih =>
    intro cops pc stack jt
    obtain ⟨op, count⟩ := g
    cases op with
    | Inc =>
      simp only [emitLoop]
      rw [ih]
      simp [jtFold, groupKind, opKind, emitOne]
    | Dec =>
      simp only [emitLoop]
      rw [ih]
      simp [jtFold, groupKind, opKind, emitOne]
    | IncPtr =>
      simp only [emitLoop]
      rw [ih]
      simp [jtFold, groupKind, opKind, emitOne]
    | DecPtr =>
      simp only [emitLoop]
      rw [ih]
      simp [jtFold, groupKind, opKind, emitOne]
    | PutChar =>
      simp only [emitLoop]
      rw [ih]
      simp [jtFold, groupKind, opKind, emitOne]
    | GetChar =>
      simp only [emitLoop]
      rw [ih]
      simp [jtFold, groupKind, opKind, emitOne]
    | LoopStart =>
      simp only [emitLoop]
      rw [ih]
      simp [jtFold, groupKind, opKind, emitOne]
    | LoopEnd =>
      simp only [emitLoop]
      cases stack with
      | nil => simp [jtFold, groupKind, opKind, emitOne]
      | cons i s =>
        dsimp only
        rw [ih]
        simp [jtFold, groupKind, opKind, emitOne]

theorem compress_eq (code : Code Op) :
    compress code =
      (jtFold ((opGroups code.ops).map groupKind) 0 []
        (List.replicate (opGroups code.ops).length 0)).map
        (fun p => { ops := emitOps code.ops, jump_table := p.1 }) := by
  unfold compress emitOps
  dsimp only
  rw [emitLoop_eq_jtFold, Option.map_map]
  rfl

theorem is_token_iff_charToOp (language : Language) (c : Char) :
    language.is_token c = (charToOp language c).isSome := by
  unfold Language.is_token charToOp
  split_ifs <;> simp_all

theorem copKind_emitOne (g : Op × Nat) : copKind (emitOne g) = groupKind g := by
  obtain ⟨op, count⟩ := g
  cases op <;> rfl

theorem filterMap_map_kinds (language : Language) :
    ∀ chars : List Char, (∀ c ∈ chars, language.is_token c = true) →
    (chars.filterMap (charToOp language)).map opKind = chars.map (kindOf language) := by
  intro chars
  induction chars with
  | nil =>
    intro _
    simp
  | cons c rest ih =>
    intro h
    have hc := h c (by simp)
    rw [is_token_iff_charToOp] at hc
    obtain ⟨op, hop⟩ := Option.isSome_iff_exists.mp hc
    have hk : kindOf language c = opKind op := by simp [kindOf, hop]
    simp [List.filterMap_cons, hop, hk, ih (fun c hc => h c (by simp [hc]))]

theorem paired_iff {L : List Bk} {p : Nat} :
    PairedBelow L L.length p ↔ (∃ q, Matched L p q ∨ Matched L q p) := by
  constructor
  · rintro ⟨i, j, hM, _, rfl | rfl⟩
    · exact ⟨j, Or.inl hM⟩
    · exact ⟨i, Or.inr hM⟩
  · rintro ⟨q, hM | hM⟩
    · exact ⟨p, q, hM, matched_close_position hM, Or.inl rfl⟩
    · exact ⟨q, p, hM, matched_close_position hM, Or.inr rfl⟩

theorem parse_some_shape {source : List Char} {language : Language} {code : Code Op}
    (hp : parse source language = some code) :
    code.ops = (source.filter language.is_token).filterMap (charToOp language) ∧
    code.ops.map opKind = tokenKinds source language ∧
    ∃ st, jtFold (tokenKinds source language) 0 []
      (List.replicate (tokenKinds source language).length 0) =
        some (code.jump_table, st) := by
  rw [parse_eq, Option.map_eq_some'] at hp
  obtain ⟨⟨jt, st⟩, hfold, hcode⟩ := hp
  obtain ⟨ops, jtc⟩ := code
  have hops : ops = (source.filter language.is_token).filterMap (charToOp language) := by
    have := congrArg Code.ops hcode
    simpa using this.symm
  have hjt : jtc = jt := by
    have := congrArg Code.jump_table hcode
    simpa using this.symm
  subst hjt
  refine ⟨by simpa using hops, ?_, ⟨st, ?_⟩⟩
  · simp only [hops]
    exact filterMap_map_kinds language _ (fun c hc => (List.mem_filter.mp hc).2)
  · have hlen : (tokenKinds source language).length =
        (source.filter language.is_token).length := by simp [tokenKinds]
    rw [hlen]
    exact hfold

theorem compress_some_shape {code : Code Op} {ccode : Code CompressedOp}
    (hc : compress code = some ccode) :
    ccode.ops = (opGroups code.ops).map emitOne ∧
    ccode.ops.map copKind = (opGroups code.ops).map groupKind ∧
    ∃ st, jtFold ((opGroups code.ops).map groupKind) 0 []
      (List.replicate ((opGroups code.ops).map groupKind).length 0) =
        some (ccode.jump_table, st) := by
  rw [compress_eq, Option.map_eq_some'] at hc
  obtain ⟨⟨jt, st⟩, hfold, hcode⟩ := hc
  obtain ⟨ops, jtc⟩ := ccode
  have hops : ops = (opGroups code.ops).map emitOne := by
    have := congrArg Code.ops hcode
    simpa [emitOps] using this.symm
  have hjt : jtc = jt := by
    have := congrArg Code.jump_table hcode
    simpa using this.symm
  subst hjt
  refine ⟨by simpa using hops, ?_, ⟨st, ?_⟩⟩
  · simp only [hops, List.map_map]
    exact List.map_congr_left (fun g _ => copKind_emitOne g)
  · have hlen : ((opGroups code.ops).map groupKind).length =
        (opGroups code.ops).length := by simp
    rw [hlen]
    exact hfold

/-- C2: in the Code returned by `parse` on a well-formed source and in the
Code returned by `compress` on it, every matched loop-start/loop-end pair
`(i, j)` has `jump_table[i] = j+1` and `jump_table[j] = i+1`, every position
not in a matched pair has jump-table entry 0, and the jump table has the
same length as the instruction sequence. -/
theorem jump_table_spec (source : List Char) (language : Language)
    (code : Code Op) (ccode : Code CompressedOp)
    (hwf : WellFormedSource source language)
    (hp : parse source language = some code)
    (hc : compress code = some ccode) :
    ((∀ i j, Matched (code.ops.map opKind) i j →
        code.jump_table[i]? = some (j + 1) ∧ code.jump_table[j]? = some (i + 1)) ∧
      (∀ p, p < code.ops.length →
        (¬ ∃ q, Matched (code.ops.map opKind) p q ∨ Matched (code.ops.map opKind) q p) →
        code.jump_table[p]? = some 0) ∧
      code.jump_table.length = code.ops.length) ∧
    ((∀ i j, Matched (ccode.ops.map copKind) i j →
        ccode.jump_table[i]? = some (j + 1) ∧ ccode.jump_table[j]? = some (i + 1)) ∧
      (∀ p, p < ccode.ops.length →
        (¬ ∃ q, Matched (ccode.ops.map copKind) p q ∨ Matched (ccode.ops.map copKind) q p) →
        ccode.jump_table[p]? = some 0) ∧
      ccode.jump_table.length = ccode.ops.length) := by
  constructor
  · obtain ⟨hops, hkinds, st, hfold⟩ := parse_some_shape hp
    rw [hkinds]
    obtain ⟨hpair, hzero, hlen⟩ := jtFold_characterization hfold
    refine ⟨hpair, ?_, ?_⟩
    · intro p hplen hnp
      apply hzero p
      · have : code.ops.length = (tokenKinds source language).length := by
          rw [← hkinds]
          simp
        omega
      · rw [paired_iff]
        exact hnp
    · rw [hlen, ← hkinds]
      simp
  · obtain ⟨hops, hkinds, st, hfold⟩ := compress_some_shape hc
    rw [hkinds]
    obtain ⟨hpair, hzero, hlen⟩ := jtFold_characterization hfold
    refine ⟨hpair, ?_, ?_⟩
    · intro p hplen hnp
      apply hzero p
      · have : ccode.ops.length = ((opGroups code.ops).map groupKind).length := by
          rw [← hkinds]
          simp
        omega
      · rw [paired_iff]
        exact hnp
    · rw [hlen, ← hkinds]
      simp

/-- C8 (corrected): the original claim fails because a source can have more
loop-start than loop-end tokens and still contain an unmatched closer, which
makes `parse` panic: `][[` has two loop starts and one loop end yet parsing
aborts. -/
theorem more_opens_counterexample :
    bkCloses (tokenKinds [']', '[', '['] defaultLanguage) <
      bkOpens (tokenKinds [']', '[', '['] defaultLanguage) ∧
    parse [']', '[', '['] defaultLanguage = none := by
  constructor
  · decide
  · rfl

/-- C8 (amended): for every source with no unmatched closer and more
loop-start than loop-end tokens, `parse` completes and returns a `Code`
without reporting any error, and the jump-table entries at the indices of
the unmatched `LoopStart` instructions remain at their zero-initialized
default 0. -/
theorem unmatched_open_silent (source : List Char) (language : Language)
    (hpre : BPre (tokenKinds source language))
    (hmore : bkCloses (tokenKinds source language) <
      bkOpens (tokenKinds source language)) :
    ∃ code, parse source language = some code ∧
      ∀ p, (code.ops.map opKind)[p]? = some .bo →
        (¬ ∃ j, Matched (code.ops.map opKind) p j) →
        code.jump_table[p]? = some 0 := by
  have hsome : ∃ code, parse source language = some code := by
    rw [parse_eq]
    rcases hfold : jtFold (tokenKinds source language) 0 []
        (List.replicate (source.filter language.is_token).length 0) with _ | p
    · exfalso
      obtain ⟨n, hn, hbad⟩ := jtFold_none_bad _ 0 [] _ hfold
      have := hpre n hn
      simp at hbad
      omega
    · exact ⟨_, rfl⟩
  obtain ⟨code, hcode⟩ := hsome
  refine ⟨code, hcode, ?_⟩
  obtain ⟨hops, hkinds, st, hfold⟩ := parse_some_shape hcode
  rw [hkinds]
  obtain ⟨hpair, hzero, hlen⟩ := jtFold_characterization hfold
  intro p hbo hnM
  apply hzero p
  · exact (List.getElem?_eq_some.mp hbo).1
  · rw [paired_iff]
    rintro ⟨q, hM | hM⟩
    · exact hnM ⟨q, hM⟩
    · have hcl := hM.2.2.1
      rw [hbo] at hcl
      exact Bk.noConfusion (Option.some.inj hcl)

/-! ## The grouping phase of the compressor -/

theorem opGroups_eq_flush (ops : List Op) :
    opGroups ops = flushGroups (groupsLoop ops none 1 []) := by
  unfold opGroups flushGroups
  rcases groupsLoop ops none 1 [] with ⟨_ | l, c, acc⟩ <;> rfl

theorem flushGroups_acc (l : Option Op) (c : Nat) (a b : List (Op × Nat)) :
    flushGroups (l, c, a ++ b) = a ++ flushGroups (l, c, b) := by
  cases l <;> simp [flushGroups]

theorem groupsLoop_acc :
    ∀ (ops : List Op) (l : Option Op) (c : Nat) (acc : List (Op × Nat)),
    groupsLoop ops l c acc =
      ((groupsLoop ops l c []).1, (groupsLoop ops l c []).2.1,
        acc ++ (groupsLoop ops l c []).2.2) := by
  intro ops
  induction ops with
  | nil =>
    intro l c acc
    simp [groupsLoop]
  | cons op rest ih =>
    intro l c acc
    match l with
    | none =>
      simp only [groupsLoop]
      exact ih (some op) c acc
    | some l' =>
      simp only [groupsLoop]
      by_cases h : (l' == op && accumCheck l') = true
      · rw [if_pos h, if_pos h]
        exact ih (some l') (c + 1) acc
      · rw [if_neg h, if_neg h]
        simp only [List.nil_append]
        rw [ih (some op) 1 (acc ++ [(l', c)]), ih (some op) 1 [(l', c)]]
        simp

theorem groupsLoop_flat :
    ∀ (ops : List Op) (l : Option Op) (c : Nat) (acc : List (Op × Nat)),
    (l = none → c = 1) →
    flatGroups (flushGroups (groupsLoop ops l c acc)) =
      flatGroups acc ++ (match l with
        | some l' => List.replicate c l'
        | none => []) ++ ops := by
  intro ops
  induction ops with
  | nil =>
    intro l c acc hc
    match l with
    | none => simp [groupsLoop, flushGroups, flatGroups]
    | some l' => simp [groupsLoop, flushGroups, flatGroups]
  | cons op rest ih =>
    intro l c acc hc
    match l with
    | none =>
      have hc1 : c = 1 := hc rfl
      subst hc1
      simp only [groupsLoop]
      rw [ih (some op) 1 acc (by simp)]
      simp
    | some l' =>
      simp only [groupsLoop]
      by_cases h : (l' == op && accumCheck l') = true
      · rw [if_pos h]
        have heq : l' = op := by
          have := (Bool.and_eq_true ..).mp h
          exact beq_iff_eq.mp this.1
        subst heq
        rw [ih (some l') (c + 1) acc (by simp)]
        simp [List.replicate_succ']
      · rw [if_neg h]
        rw [ih (some op) 1 (acc ++ [(l', c)]) (by simp)]
        simp [flatGroups]

theorem flatGroups_opGroups (ops : List Op) : flatGroups (opGroups ops) = ops := by
  rw [opGroups_eq_flush, groupsLoop_flat ops none 1 [] (fun _ => rfl)]
  simp [flatGroups]

theorem groups_prop :
    ∀ (ops : List Op) (l : Option Op) (c : Nat) (acc : List (Op × Nat)),
    (∀ g ∈ acc, 1 ≤ g.2 ∧ (accumCheck g.1 = false → g.2 = 1)) →
    (match l with
      | none => c = 1
      | some l' => 1 ≤ c ∧ (accumCheck l' = false → c = 1)) →
    ∀ g ∈ flushGroups (groupsLoop ops l c acc),
      1 ≤ g.2 ∧ (accumCheck g.1 = false → g.2 = 1) := by
  intro ops
  induction ops with
  | nil =>
    intro l c acc hacc hpend g hg
    match l with
    | none =>
      simp only [groupsLoop, flushGroups] at hg
      exact hacc g hg
    | some l' =>
      simp only [groupsLoop, flushGroups] at hg
      rcases List.mem_append.mp hg with h | h
      · exact hacc g h
      · simp at h
        subst h
        exact hpend
  | cons op rest ih =>
    intro l c acc hacc hpend g hg
    match l with
    | none =>
      simp only [groupsLoop] at hg
      exact ih (some op) c acc hacc (by
        simp only
        have hc1 : c = 1 := hpend
        constructor
        · omega
        · intro _
          exact hc1) g hg
    | some l' =>
      simp only [groupsLoop] at hg
      by_cases h : (l' == op && accumCheck l') = true
      · rw [if_pos h] at hg
        have hca : accumCheck l' = true := ((Bool.and_eq_true ..).mp h).2
        exact ih (some l') (c + 1) acc hacc (by
          simp only
          constructor
          · omega
          · intro hfalse
            rw [hca] at hfalse
            cases hfalse) g hg
      · rw [if_neg h] at hg
        refine ih (some op) 1 (acc ++ [(l', c)]) ?_ (by simp) g hg
        intro g' hg'
        rcases List.mem_append.mp hg' with h' | h'
        · exact hacc g' h'
        · simp at h'
          subst h'
          exact hpend

theorem opGroups_prop (ops : List Op) :
    ∀ g ∈ opGroups ops, 1 ≤ g.2 ∧ (accumCheck g.1 = false → g.2 = 1) := by
  rw [opGroups_eq_flush]
  exact groups_prop ops none 1 [] (by simp) rfl

theorem groupsLoop_append :
    ∀ (xs ys : List Op) (l : Option Op) (c : Nat) (acc : List (Op × Nat)),
    groupsLoop (xs ++ ys) l c acc =
      groupsLoop ys (groupsLoop xs l c acc).1 (groupsLoop xs l c acc).2.1
        (groupsLoop xs l c acc).2.2 := by
  intro xs
  induction xs with
  | nil =>
    intro ys l c acc
    simp [groupsLoop]
  | cons op rest ih =>
    intro ys l c acc
    match l with
    | none =>
      simp only [List.cons_append, groupsLoop]
      exact ih ys (some op) c acc
    | some l' =>
      simp only [List.cons_append, groupsLoop]
      by_cases h : (l' == op && accumCheck l') = true
      · rw [if_pos h, if_pos h]
        exact ih ys (some l') (c + 1) acc
      · rw [if_neg h, if_neg h]
        exact ih ys (some op) 1 (acc ++ [(l', c)])

theorem groupsLoop_last :
    ∀ (ops : List Op) (o : Op) (l : Option Op) (c : Nat) (acc : List (Op × Nat)),
    ops.getLast? = some o → (groupsLoop ops l c acc).1 = some o := by
  intro ops
  induction ops with
  | nil =>
    intro o l c acc h
    simp at h
  | cons op rest ih =>
    intro o l c acc h
    match rest, h with
    | [], h =>
      have ho : op = o := by simpa using h
      subst ho
      match l with
      | none => simp [groupsLoop]
      | some l' =>
        simp only [groupsLoop]
        by_cases hcond : (l' == op && accumCheck l') = true
        · have hl : l' = op := beq_iff_eq.mp ((Bool.and_eq_true ..).mp hcond).1
          simp [hcond, groupsLoop, hl]
          split <;> rfl
        · simp [hcond, groupsLoop]
    | r :: rest', h =>
      have hlast : (r :: rest').getLast? = some o := by
        rwa [List.getLast?_cons_cons] at h
      match l with
      | none =>
        simp only [groupsLoop]
        exact ih o (some op) c acc hlast
      | some l' =>
        simp only [groupsLoop]
        by_cases hcond : (l' == op && accumCheck l') = true
        · rw [if_pos hcond]
          exact ih o (some l') (c + 1) acc hlast
        · rw [if_neg hcond]
          exact ih o (some op) 1 (acc ++ [(l', c)]) hlast

theorem opGroups_append {xs ys : List Op}
    (h : ∀ a b, xs.getLast? = some a → ys.head? = some b →
      (a == b && accumCheck a) = false) :
    opGroups (xs ++ ys) = opGroups xs ++ opGroups ys := by
  match xs, ys with
  | [], ys => simp [opGroups, groupsLoop]
  | x :: xs', [] => simp [opGroups, groupsLoop]
  | x :: xs', y :: ys' =>
    obtain ⟨a, ha⟩ : ∃ a, (x :: xs').getLast? = some a := by
      cases hl : (x :: xs').getLast? with
      | none => simp at hl
      | some a => exact ⟨a, rfl⟩
    have hcond := h a y ha rfl
    rw [opGroups_eq_flush, opGroups_eq_flush, opGroups_eq_flush]
    rw [groupsLoop_append]
    rcases hg : groupsLoop (x :: xs') none 1 [] with ⟨gl, gc, gacc⟩
    have hgl : gl = some a := by
      have := groupsLoop_last (x :: xs') a none 1 [] ha
      rw [hg] at this
      exact this
    subst hgl
    show flushGroups (groupsLoop (y :: ys') (some a) gc gacc) =
      flushGroups (some a, gc, gacc) ++ flushGroups (groupsLoop (y :: ys') none 1 [])
    simp only [groupsLoop]
    rw [if_neg (by rw [hcond]; simp)]
    rw [groupsLoop_acc ys' (some y) 1 (gacc ++ [(a, gc)])]
    rcases hr : groupsLoop ys' (some y) 1 [] with ⟨rl, rc, racc⟩
    rcases rl with _ | rlv <;> simp [flushGroups]

theorem groupsLoop_replicate_accum {o : Op} (hacc : accumCheck o = true) :
    ∀ (k c : Nat) (acc : List (Op × Nat)),
    groupsLoop (List.replicate k o) (some o) c acc = (some o, c + k, acc) := by
  intro k
  induction k with
  | zero =>
    intro c acc
    simp [groupsLoop]
  | succ m ih =>
    intro c acc
    rw [List.replicate_succ]
    simp only [groupsLoop]
    rw [if_pos (by simp [hacc])]
    rw [ih (c + 1) acc]
    have harith : c + 1 + m = c + (m + 1) := by omega
    rw [harith]

theorem opGroups_replicate_accum {o : Op} (hacc : accumCheck o = true) {N : Nat}
    (hN : 1 ≤ N) : opGroups (List.replicate N o) = [(o, N)] := by
  obtain ⟨m, rfl⟩ : ∃ m, N = m + 1 := ⟨N - 1, by omega⟩
  rw [opGroups_eq_flush, List.replicate_succ]
  simp only [groupsLoop]
  rw [groupsLoop_replicate_accum hacc m 1 []]
  simp only [flushGroups, List.nil_append]
  rw [Nat.add_comm 1 m]

theorem groupsLoop_replicate_nonaccum {o : Op} (hacc : accumCheck o = false) :
    ∀ (k : Nat) (acc : List (Op × Nat)),
    groupsLoop (List.replicate k o) (some o) 1 acc =
      (some o, 1, acc ++ List.replicate k (o, 1)) := by
  intro k
  induction k with
  | zero =>
    intro acc
    simp [groupsLoop]
  | succ m ih =>
    intro acc
    rw [List.replicate_succ]
    simp only [groupsLoop]
    rw [if_neg (by simp [hacc])]
    rw [ih (acc ++ [(o, 1)])]
    simp [List.replicate_succ]

theorem opGroups_replicate_nonaccum {o : Op} (hacc : accumCheck o = false) (N : Nat) :
    opGroups (List.replicate N o) = List.replicate N (o, 1) := by
  cases N with
  | zero => simp [opGroups, groupsLoop]
  | succ m =>
    rw [opGroups_eq_flush, List.replicate_succ]
    simp only [groupsLoop]
    rw [groupsLoop_replicate_nonaccum hacc m []]
    simp [flushGroups, List.replicate_succ']

theorem replicate_getLast? {α : Type} (o : α) : ∀ {N : Nat}, 1 ≤ N →
    (List.replicate N o).getLast? = some o := by
  intro N
  induction N with
  | zero =>
    intro h
    omega
  | succ k ih =>
    intro _
    cases k with
    | zero => rfl
    | succ m =>
      rw [List.replicate_succ, List.replicate_succ, List.getLast?_cons_cons,
        ← List.replicate_succ]
      exact ih (by omega)

/-- C3: `compress` turns every maximal run of `N` identical accumulating
instructions (`Inc`, `Dec`, `IncPtr`, `DecPtr`) into the single counted
instruction `emitOne (o, N)` — `Add (N % 256)` / `Sub (N % 256)` /
`Forward N` / `Back N`, the `% 256` being the narrowing `count as u8`
conversion — whereas `N` consecutive non-accumulating instructions
(`PutChar`, `GetChar`, `LoopStart`, `LoopEnd`) remain `N` separate
instructions. -/
theorem compress_merge_spec (code : Code Op) (ccode : Code CompressedOp)
    (pre post : List Op) (o : Op) (N : Nat)
    (hc : compress code = some ccode)
    (hshape : code.ops = pre ++ List.replicate N o ++ post)
    (hN : 1 ≤ N) :
    (accumCheck o = true →
      pre.getLast? ≠ some o → post.head? ≠ some o →
      ccode.ops = emitOps pre ++ [emitOne (o, N)] ++ emitOps post) ∧
    (accumCheck o = false →
      ccode.ops = emitOps pre ++ List.replicate N (emitOne (o, 1)) ++ emitOps post) := by
  have hops := (compress_some_shape hc).1
  rw [hshape] at hops
  have hhead : (List.replicate N o ++ post).head? = some o := by
    obtain ⟨m, rfl⟩ : ∃ m, N = m + 1 := ⟨N - 1, by omega⟩
    rw [List.replicate_succ]
    rfl
  constructor
  · intro hacc hpre hpost
    have hsplit1 : opGroups (pre ++ (List.replicate N o ++ post)) =
        opGroups pre ++ opGroups (List.replicate N o ++ post) := by
      apply opGroups_append
      intro a b ha hb
      rw [hhead] at hb
      have hb' : b = o := (Option.some.inj hb).symm
      subst hb'
      have hao : ¬ a = b := fun hab => hpre (hab ▸ ha)
      simp [hao]
    have hsplit2 : opGroups (List.replicate N o ++ post) =
        opGroups (List.replicate N o) ++ opGroups post := by
      apply opGroups_append
      intro a b ha hb
      have ha' : a = o := by
        rw [replicate_getLast? o hN] at ha
        exact (Option.some.inj ha).symm
      subst ha'
      have hbo : ¬ a = b := by
        intro hab
        exact hpost (hab ▸ hb)
      simp [hbo]
    rw [List.append_assoc, hsplit1, hsplit2, opGroups_replicate_accum hacc hN] at hops
    rw [hops]
    simp [emitOps]
  · intro hacc
    have hsplit1 : opGroups (pre ++ (List.replicate N o ++ post)) =
        opGroups pre ++ opGroups (List.replicate N o ++ post) := by
      apply opGroups_append
      intro a b ha hb
      rw [hhead] at hb
      have hb' : b = o := (Option.some.inj hb).symm
      subst hb'
      by_cases hab : a = b
      · subst hab
        simp [hacc]
      · simp [hab]
    have hsplit2 : opGroups (List.replicate N o ++ post) =
        opGroups (List.replicate N o) ++ opGroups post := by
      apply opGroups_append
      intro a b ha hb
      have ha' : a = o := by
        rw [replicate_getLast? o hN] at ha
        exact (Option.some.inj ha).symm
      subst ha'
      simp [hacc]
    rw [List.append_assoc, hsplit1, hsplit2, opGroups_replicate_nonaccum hacc N] at hops
    rw [hops]
    simp [emitOps]

/-! ## Boundary correspondence between raw indices and group indices -/

theorem flatGroups_nil : flatGroups [] = [] := rfl

theorem flatGroups_cons (g : Op × Nat) (gs : List (Op × Nat)) :
    flatGroups (g :: gs) = List.replicate g.2 g.1 ++ flatGroups gs := by
  simp [flatGroups]

theorem flatGroups_append (a b : List (Op × Nat)) :
    flatGroups (a ++ b) = flatGroups a ++ flatGroups b := by
  simp [flatGroups]

theorem flatGroups_length (gs : List (Op × Nat)) :
    (flatGroups gs).length = (gs.map Prod.snd).sum := by
  induction gs with
  | nil => rfl
  | cons g rest ih => simp [flatGroups_cons, ih]

theorem groupBound_zero (G : List (Op × Nat)) : groupBound G 0 = 0 := rfl

theorem groupBound_succ {G : List (Op × Nat)} {t : Nat} {g : Op × Nat}
    (h : G[t]? = some g) : groupBound G (t + 1) = groupBound G t + g.2 := by
  unfold groupBound
  rw [List.take_succ, h]
  simp

theorem groupBound_le_succ (G : List (Op × Nat)) (t : Nat) :
    groupBound G t ≤ groupBound G (t + 1) := by
  rcases h : G[t]? with _ | g
  · have : G.length ≤ t := by
      by_contra hc
      rw [List.getElem?_eq_getElem (by omega)] at h
      exact Option.noConfusion h
    unfold groupBound
    rw [List.take_of_length_le (by omega), List.take_of_length_le (by omega)]
  · rw [groupBound_succ h]
    omega

theorem groupBound_mono (G : List (Op × Nat)) {s t : Nat} (h : s ≤ t) :
    groupBound G s ≤ groupBound G t := by
  induction t with
  | zero =>
    have : s = 0 := by omega
    subst this
    exact le_rfl
  | succ k ih =>
    rcases Nat.lt_or_ge s (k + 1) with hs | hs
    · exact le_trans (ih (by omega)) (groupBound_le_succ G k)
    · have : s = k + 1 := by omega
      subst this
      exact le_rfl

theorem groupBound_lt_succ {G : List (Op × Nat)}
    (hprop : ∀ g ∈ G, 1 ≤ g.2) {t : Nat} (h : t < G.length) :
    groupBound G t < groupBound G (t + 1) := by
  obtain ⟨g, hg⟩ : ∃ g, G[t]? = some g := ⟨_, List.getElem?_eq_getElem h⟩
  rw [groupBound_succ hg]
  have := hprop g (List.getElem?_mem hg)
  omega

theorem groupBound_strict_mono {G : List (Op × Nat)}
    (hprop : ∀ g ∈ G, 1 ≤ g.2) {s t : Nat} (hs : s < t) (ht : s < G.length) :
    groupBound G s < groupBound G t := by
  have h1 : groupBound G s < groupBound G (s + 1) := groupBound_lt_succ hprop ht
  have h2 : groupBound G (s + 1) ≤ groupBound G t := groupBound_mono G (by omega)
  omega

theorem groupBound_total (G : List (Op × Nat)) :
    groupBound G G.length = (flatGroups G).length := by
  unfold groupBound
  rw [List.take_length, flatGroups_length]

theorem groupBound_le_total (G : List (Op × Nat)) (t : Nat) :
    groupBound G t ≤ (flatGroups G).length := by
  rcases Nat.lt_or_ge t G.length with h | h
  · rw [← groupBound_total]
    exact groupBound_mono G (by omega)
  · unfold groupBound
    rw [List.take_of_length_le (by omega), ← flatGroups_length]

theorem groupBound_clamp (G : List (Op × Nat)) {t : Nat} (h : G.length ≤ t) :
    groupBound G t = (flatGroups G).length := by
  unfold groupBound
  rw [List.take_of_length_le (by omega), flatGroups_length]

theorem jtFold_replicate_bn :
    ∀ (c : Nat) (ks : List Bk) (pc : Nat) (s jt : List Nat),
    jtFold (List.replicate c .bn ++ ks) pc s jt = jtFold ks (pc + c) s jt := by
  intro c
  induction c with
  | zero =>
    intro ks pc s jt
    simp
  | succ m ih =>
    intro ks pc s jt
    rw [List.replicate_succ]
    simp only [List.cons_append, jtFold, List.append_eq]
    rw [ih ks (pc + 1) s jt]
    congr 1
    omega

theorem kind_not_bn_not_accum {o : Op} (h : opKind o ≠ .bn) : accumCheck o = false := by
  cases o <;> first
    | rfl
    | exact absurd rfl h

theorem getD_set_self_of_lt {l : List Nat} {i a : Nat} (h : i < l.length) :
    (l.set i a).getD i 0 = a := by
  rw [List.getD_eq_getElem _ 0 (by simpa using h), List.getElem_set_self]

theorem getD_set_ne {l : List Nat} {i j a : Nat} (h : i ≠ j) :
    (l.set i a).getD j 0 = l.getD j 0 := by
  simp [List.getD, List.getElem?_set_ne h]

/-- The jump-table folds of the raw code and of the compressed code walk in
lockstep: the raw fold over the flattened groups and the group fold either
both fail (unmatched loop end), or both succeed with jump tables that agree
at every group boundary under the boundary translation `groupBound`. -/
theorem parallel_fold (G : List (Op × Nat))
    (hprop : ∀ g ∈ G, 1 ≤ g.2 ∧ (accumCheck g.1 = false → g.2 = 1)) :
    ∀ (rest done : List (Op × Nat)) (sg jg jr : List Nat),
    G = done ++ rest →
    jg.length = G.length →
    jr.length = (flatGroups G).length →
    (∀ g, g < G.length → jr[groupBound G g]? = some (groupBound G (jg.getD g 0))) →
    (∀ i ∈ sg, i < done.length ∧ ∃ oc, G[i]? = some oc ∧ opKind oc.1 = .bo) →
    (jtFold (rest.map groupKind) done.length sg jg = none ∧
      jtFold ((flatGroups rest).map opKind) (groupBound G done.length)
        (sg.map (groupBound G)) jr = none) ∨
    (∃ jg' sg' jr',
      jtFold (rest.map groupKind) done.length sg jg = some (jg', sg') ∧
      jtFold ((flatGroups rest).map opKind) (groupBound G done.length)
        (sg.map (groupBound G)) jr = some (jr', sg'.map (groupBound G)) ∧
      jg'.length = G.length ∧ jr'.length = (flatGroups G).length ∧
      (∀ g, g < G.length → jr'[groupBound G g]? = some (groupBound G (jg'.getD g 0)))) := by
  have hprop1 : ∀ g ∈ G, 1 ≤ g.2 := fun g hg => (hprop g hg).1
  intro rest
  induction rest with
  | nil =>
    intro done sg jg jr hsplit hlg hlr hd hsg
    right
    exact ⟨jg, sg, jr, rfl, rfl, hlg, hlr, hd⟩
  | cons g0 rest' ih =>
    intro done sg jg jr hsplit hlg hlr hd hsg
    obtain ⟨o, c⟩ := g0
    have hGt : G[done.length]? = some (o, c) := by
      rw [hsplit, List.getElem?_append_right (le_refl done.length)]
      simp
    have hlt : done.length < G.length := by
      rw [hsplit]
      simp
    have hmem : (o, c) ∈ G := List.getElem?_mem hGt
    have hc1 : 1 ≤ c := (hprop _ hmem).1
    have hBsucc : groupBound G (done.length + 1) = groupBound G done.length + c :=
      groupBound_succ hGt
    have hsplit' : G = (done ++ [(o, c)]) ++ rest' := by
      rw [hsplit]
      simp
    have hdone' : (done ++ [(o, c)]).length = done.length + 1 := by simp
    have hflat : (flatGroups ((o, c) :: rest')).map opKind =
        List.replicate c (opKind o) ++ (flatGroups rest').map opKind := by
      rw [flatGroups_cons, List.map_append, List.map_replicate]
    rcases hk : opKind o with hbo | hbc | hbn
    · -- opKind o = .bo : a singleton loop-start group
      have haccf : accumCheck o = false := kind_not_bn_not_accum (by rw [hk]; simp)
      have hco : c = 1 := (hprop _ hmem).2 haccf
      subst hco
      have hstep_g : jtFold (((o, 1) :: rest').map groupKind) done.length sg jg =
          jtFold (rest'.map groupKind) (done.length + 1) (done.length :: sg) jg := by
        simp only [List.map_cons, groupKind, hk, jtFold]
      have hstep_r : jtFold ((flatGroups ((o, 1) :: rest')).map opKind)
          (groupBound G done.length) (sg.map (groupBound G)) jr =
          jtFold ((flatGroups rest').map opKind) (groupBound G done.length + 1)
            (groupBound G done.length :: sg.map (groupBound G)) jr := by
        rw [hflat, hk]
        simp only [List.replicate_succ, List.replicate_zero, List.nil_append,
          List.cons_append, jtFold, List.append_eq]
      rw [hstep_g, hstep_r]
      have := ih (done ++ [(o, 1)]) (done.length :: sg) jg jr hsplit' hlg hlr hd
        (by
          intro i hi
          rcases List.mem_cons.mp hi with rfl | hi'
          · exact ⟨by simp, ⟨(o, 1), hGt, hk⟩⟩
          · obtain ⟨h1, h2⟩ := hsg i hi'
            exact ⟨by simp; omega, h2⟩)
      rw [hdone'] at this
      rw [hBsucc] at this
      rcases this with ⟨h1, h2⟩ | ⟨jg', sg', jr', h1, h2, h3, h4, h5⟩
      · left
        refine ⟨h1, ?_⟩
        rw [show groupBound G done.length + 1 = groupBound G done.length + 1 from rfl]
        exact h2
      · right
        refine ⟨jg', sg', jr', h1, ?_, h3, h4, h5⟩
        rw [show (done.length :: sg).map (groupBound G) =
          groupBound G done.length :: sg.map (groupBound G) from rfl] at h2
        exact h2
    · -- opKind o = .bc : a singleton loop-end group
      have haccf : accumCheck o = false := kind_not_bn_not_accum (by rw [hk]; simp)
      have hco : c = 1 := (hprop _ hmem).2 haccf
      subst hco
      cases sg with
      | nil =>
        left
        constructor
        · simp only [List.map_cons, groupKind, hk, jtFold]
        · rw [hflat, hk]
          simp only [List.replicate_succ, List.replicate_zero, List.nil_append,
            List.cons_append, List.map_nil, jtFold, List.append_eq]
      | cons i sg'' =>
        obtain ⟨hi_lt, ⟨oci, hoci, hoci_bo⟩⟩ := hsg i (by simp)
        have hci : oci.2 = 1 :=
          (hprop oci (List.getElem?_mem hoci)).2
            (kind_not_bn_not_accum (by rw [hoci_bo]; simp))
        have hBisucc : groupBound G (i + 1) = groupBound G i + 1 := by
          rw [groupBound_succ hoci, hci]
        have hi_lt_len : i < G.length := by omega
        have hBi_lt_Bt : groupBound G i < groupBound G done.length :=
          groupBound_strict_mono hprop1 hi_lt hi_lt_len
        have hBt_lt_total : groupBound G done.length < (flatGroups G).length := by
          have := groupBound_lt_succ hprop1 hlt
          have := groupBound_le_total G (done.length + 1)
          omega
        have hstep_g : jtFold (((o, 1) :: rest').map groupKind) done.length
            (i :: sg'') jg =
            jtFold (rest'.map groupKind) (done.length + 1) sg''
              ((jg.set i (done.length + 1)).set done.length (i + 1)) := by
          simp only [List.map_cons, groupKind, hk, jtFold]
        have hstep_r : jtFold ((flatGroups ((o, 1) :: rest')).map opKind)
            (groupBound G done.length) ((i :: sg'').map (groupBound G)) jr =
            jtFold ((flatGroups rest').map opKind) (groupBound G done.length + 1)
              (sg''.map (groupBound G))
              ((jr.set (groupBound G i) (groupBound G done.length + 1)).set
                (groupBound G done.length) (groupBound G i + 1)) := by
          rw [hflat, hk]
          simp only [List.replicate_succ, List.replicate_zero, List.nil_append,
            List.cons_append, List.map_cons, jtFold, List.append_eq]
        rw [hstep_g, hstep_r]
        have hd' : ∀ g, g < G.length →
            ((jr.set (groupBound G i) (groupBound G done.length + 1)).set
              (groupBound G done.length) (groupBound G i + 1))[groupBound G g]? =
            some (groupBound G
              (((jg.set i (done.length + 1)).set done.length (i + 1)).getD g 0)) := by
          intro g hg
          rcases eq_or_ne g i with rfl | hgi
          · rw [List.getElem?_set_ne (by omega : groupBound G done.length ≠ groupBound G g),
              getElem?_set_self_of_lt (by omega)]
            rw [getD_set_ne (by omega : done.length ≠ g),
              getD_set_self_of_lt (by omega)]
            rw [← hBsucc]
          · rcases eq_or_ne g done.length with rfl | hgt
            · rw [getElem?_set_self_of_lt (by simp; omega)]
              rw [getD_set_self_of_lt (by simp; omega)]
              rw [← hBisucc]
            · have hBgi : groupBound G g ≠ groupBound G i := by
                rcases Nat.lt_or_ge g i with h | h
                · have := groupBound_strict_mono hprop1 h (by omega)
                  omega
                · have : i < g := by omega
                  have := groupBound_strict_mono hprop1 this hi_lt_len
                  omega
              have hBgt : groupBound G g ≠ groupBound G done.length := by
                rcases Nat.lt_or_ge g done.length with h | h
                · have := groupBound_strict_mono hprop1 h hg
                  omega
                · have : done.length < g := by omega
                  have := groupBound_strict_mono hprop1 this hlt
                  omega
              rw [List.getElem?_set_ne (Ne.symm hBgt), List.getElem?_set_ne (Ne.symm hBgi)]
              rw [getD_set_ne (Ne.symm hgt), getD_set_ne (Ne.symm hgi)]
              exact hd g hg
        have := ih (done ++ [(o, 1)]) sg''
          ((jg.set i (done.length + 1)).set done.length (i + 1))
          ((jr.set (groupBound G i) (groupBound G done.length + 1)).set
            (groupBound G done.length) (groupBound G i + 1))
          hsplit' (by simp [hlg]) (by simp [hlr]) hd'
          (by
            intro x hx
            obtain ⟨h1, h2⟩ := hsg x (by simp [hx])
            exact ⟨by simp; omega, h2⟩)
        rw [hdone', hBsucc] at this
        exact this
    · -- opKind o = .bn : an accumulating or IO group, no bracket action
      have hstep_g : jtFold (((o, c) :: rest').map groupKind) done.length sg jg =
          jtFold (rest'.map groupKind) (done.length + 1) sg jg := by
        simp only [List.map_cons, groupKind, hk, jtFold]
      have hstep_r : jtFold ((flatGroups ((o, c) :: rest')).map opKind)
          (groupBound G done.length) (sg.map (groupBound G)) jr =
          jtFold ((flatGroups rest').map opKind) (groupBound G (done.length + 1))
            (sg.map (groupBound G)) jr := by
        rw [hflat, hk, jtFold_replicate_bn, hBsucc]
      rw [hstep_g, hstep_r]
      have := ih (done ++ [(o, c)]) sg jg jr hsplit' hlg hlr hd
        (by
          intro i hi
          obtain ⟨h1, h2⟩ := hsg i hi
          exact ⟨by simp; omega, h2⟩)
      rw [hdone'] at this
      exact this

theorem getD_replicate_zero (n g : Nat) : (List.replicate n (0 : Nat)).getD g 0 = 0 := by
  rw [List.getD_eq_getElem?_getD, List.getElem?_replicate]
  split <;> rfl

/-- C7: a loop-end token at a position where no loop-start is open (some
prefix of the token stream has more closers than openers) is fatal: `parse`
panics and returns no `Code`, and `compress` panics in the same way on a
raw sequence with an unmatched `LoopEnd`. -/
theorem unmatched_close_aborts :
    (∀ (source : List Char) (language : Language),
      ¬ BPre (tokenKinds source language) → parse source language = none) ∧
    (∀ code : Code Op, ¬ BPre (code.ops.map opKind) → compress code = none) := by
  constructor
  · intro source language hbad
    rcases hp : parse source language with _ | code
    · rfl
    · exfalso
      obtain ⟨hops, hkinds, st, hfold⟩ := parse_some_shape hp
      apply hbad
      intro n hn
      have := jtFold_some_BPre _ 0 [] _ _ hfold n hn
      simpa using this
  · intro code hbad
    rcases hc : compress code with _ | ccode
    · rfl
    · exfalso
      obtain ⟨hops, hkinds, st, hfold⟩ := compress_some_shape hc
      have hpropG := opGroups_prop code.ops
      have hprop1 : ∀ g ∈ opGroups code.ops, 1 ≤ g.2 := fun g hg => (hpropG g hg).1
      have hpar := parallel_fold (opGroups code.ops) hpropG (opGroups code.ops) []
        [] (List.replicate (opGroups code.ops).length 0)
        (List.replicate (flatGroups (opGroups code.ops)).length 0)
        (by simp) (by simp) (by simp)
        (by
          intro g hg
          have h1 : groupBound (opGroups code.ops) g <
              (flatGroups (opGroups code.ops)).length := by
            have ha := groupBound_lt_succ hprop1 hg
            have hb := groupBound_le_total (opGroups code.ops) (g + 1)
            omega
          rw [List.getElem?_replicate, if_pos h1, getD_replicate_zero, groupBound_zero])
        (by simp)
      have hfold' : jtFold ((opGroups code.ops).map groupKind) 0 []
          (List.replicate (opGroups code.ops).length 0) = some (ccode.jump_table, st) := by
        have hlen : ((opGroups code.ops).map groupKind).length =
            (opGroups code.ops).length := by simp
        rw [← hlen]
        exact hfold
      simp only [List.length_nil, groupBound_zero, List.map_nil] at hpar
      rcases hpar with ⟨hgnone, _⟩ | ⟨jg', sg', jr', hg_some, hr_some, _⟩
      · rw [hfold'] at hgnone
        exact Option.noConfusion hgnone
      · apply hbad
        have hflat_ops : (flatGroups (opGroups code.ops)).map opKind =
            code.ops.map opKind := by rw [flatGroups_opGroups]
        rw [← hflat_ops]
        intro n hn
        have := jtFold_some_BPre _ 0 [] _ _ hr_some n hn
        simpa using this

/-! ## Stepwise execution lemmas for the simulation proof -/

theorem runLoop_peel {α : Type} {step : Code α → Environment → Option Environment}
    {code : Code α} {f : Nat} {e r : Environment}
    (h : runLoop step code f e = .done r) (hpc : e.pc < code.ops.length) :
    ∃ e' f', f = f' + 1 ∧ step code e = some e' ∧ runLoop step code f' e' = .done r := by
  rw [runLoop.eq_def, if_pos hpc] at h
  cases f with
  | zero => simp at h
  | succ f' =>
    cases hs : step code e with
    | none =>
      rw [hs] at h
      simp at h
    | some e' =>
      rw [hs] at h
      exact ⟨e', f', rfl, rfl, h⟩

theorem runLoop_done_of_ge {α : Type} {step : Code α → Environment → Option Environment}
    {code : Code α} {f : Nat} {e r : Environment}
    (h : runLoop step code f e = .done r) (hpc : ¬ e.pc < code.ops.length) :
    r = e := by
  rw [runLoop.eq_def, if_neg hpc] at h
  cases h
  rfl

theorem runLoop_end {α : Type} (step : Code α → Environment → Option Environment)
    (code : Code α) (f : Nat) (e : Environment) (hpc : ¬ e.pc < code.ops.length) :
    runLoop step code f e = .done e := by
  rw [runLoop.eq_def, if_neg hpc]

theorem flat_ops_at {G : List (Op × Nat)} {ops : List Op} {t : Nat} {o : Op} {c : Nat}
    (hflat : flatGroups G = ops) (hGt : G[t]? = some (o, c)) :
    ∀ k, k < c → ops[groupBound G t + k]? = some o := by
  intro k hk
  have ht : t < G.length := (List.getElem?_eq_some.mp hGt).1
  have hdecomp : G = G.take t ++ (o, c) :: G.drop (t + 1) := by
    conv_lhs => rw [← List.take_append_drop t G]
    congr 1
    rw [List.drop_eq_getElem_cons ht]
    congr 1
    exact (List.getElem?_eq_some.mp hGt).2
  have hops : ops = flatGroups (G.take t) ++ (List.replicate c o ++
      flatGroups (G.drop (t + 1))) := by
    rw [← hflat]
    conv_lhs => rw [hdecomp]
    rw [flatGroups_append, flatGroups_cons]
  have hlen_take : (flatGroups (G.take t)).length = groupBound G t := by
    rw [flatGroups_length]
    rfl
  rw [hops, List.getElem?_append_right (by omega), hlen_take]
  have hidx : groupBound G t + k - groupBound G t = k := by omega
  rw [hidx, List.getElem?_append, if_pos (by simp; omega), List.getElem?_replicate,
    if_pos hk]

theorem stepOp_inc {code : Code Op} {e : Environment} {v : Nat}
    (hop : code.ops[e.pc]? = some .Inc) (hv : e.data[e.pointer]? = some v) :
    stepOp code e =
      some { e with data := e.data.set e.pointer ((v + 1) % 256), pc := e.pc + 1 } := by
  rw [stepOp, hop]
  simp [Op.run, Environment.add, hv, Environment.advance_pc, wadd]

theorem stepOp_dec {code : Code Op} {e : Environment} {v : Nat}
    (hop : code.ops[e.pc]? = some .Dec) (hv : e.data[e.pointer]? = some v) :
    stepOp code e =
      some { e with data := e.data.set e.pointer ((v + 255) % 256), pc := e.pc + 1 } := by
  rw [stepOp, hop]
  simp [Op.run, Environment.sub, hv, Environment.advance_pc, wsub]

theorem stepOp_incptr {code : Code Op} {e : Environment}
    (hop : code.ops[e.pc]? = some .IncPtr) :
    stepOp code e = some { e with pointer := e.pointer + 1, pc := e.pc + 1 } := by
  rw [stepOp, hop]
  simp [Op.run, Environment.add_ptr, Environment.advance_pc]

theorem stepOp_decptr {code : Code Op} {e : Environment} (h1 : 1 ≤ e.pointer)
    (hop : code.ops[e.pc]? = some .DecPtr) :
    stepOp code e = some { e with pointer := e.pointer - 1, pc := e.pc + 1 } := by
  rw [stepOp, hop]
  simp [Op.run, Environment.sub_ptr, h1, Environment.advance_pc]

theorem run_incs {code : Code Op} :
    ∀ (c : Nat), 1 ≤ c → ∀ (f : Nat) (e : Environment) (v : Nat) (r : Environment),
    (∀ k, k < c → code.ops[e.pc + k]? = some .Inc) →
    e.data[e.pointer]? = some v →
    runLoop stepOp code f e = .done r →
    ∃ f', f' + c ≤ f ∧ runLoop stepOp code f'
      { e with data := e.data.set e.pointer ((v + c) % 256), pc := e.pc + c } =
        .done r := by
  intro c hc
  induction c, hc using Nat.le_induction with
  | base =>
    intro f e v r hops hv hrun
    have hpc : e.pc < code.ops.length := by
      have := hops 0 (by omega)
      simpa using (List.getElem?_eq_some.mp this).1
    obtain ⟨e', f', rfl, hstep, hrest⟩ := runLoop_peel hrun hpc
    rw [stepOp_inc (by simpa using hops 0 (by omega)) hv] at hstep
    have he' := (Option.some.inj hstep).symm
    subst he'
    exact ⟨f', by omega, hrest⟩
  | succ n hn ihn =>
    intro f e v r hops hv hrun
    have hpc : e.pc < code.ops.length := by
      have := hops 0 (by omega)
      simpa using (List.getElem?_eq_some.mp this).1
    have hptr : e.pointer < e.data.length := (List.getElem?_eq_some.mp hv).1
    obtain ⟨e', f', rfl, hstep, hrest⟩ := runLoop_peel hrun hpc
    rw [stepOp_inc (by simpa using hops 0 (by omega)) hv] at hstep
    have he' := (Option.some.inj hstep).symm
    subst he'
    obtain ⟨f'', hf'', hdone⟩ := ihn f' _ ((v + 1) % 256) r
      (by
        intro k hk
        have h := hops (k + 1) (by omega)
        have hidx : e.pc + (k + 1) = e.pc + 1 + k := by omega
        rw [hidx] at h
        exact h)
      (by
        simp only
        exact getElem?_set_self_of_lt hptr)
      hrest
    refine ⟨f'', by omega, ?_⟩
    simp only [List.set_set] at hdone
    have h1 : ((v + 1) % 256 + n) % 256 = (v + (n + 1)) % 256 := by omega
    have h2 : e.pc + 1 + n = e.pc + (n + 1) := by omega
    rw [h1, h2] at hdone
    exact hdone

theorem run_decs {code : Code Op} :
    ∀ (c : Nat), 1 ≤ c → ∀ (f : Nat) (e : Environment) (v : Nat) (r : Environment),
    (∀ k, k < c → code.ops[e.pc + k]? = some .Dec) →
    e.data[e.pointer]? = some v →
    runLoop stepOp code f e = .done r →
    ∃ f', f' + c ≤ f ∧ runLoop stepOp code f'
      { e with data := e.data.set e.pointer ((v + 255 * c) % 256), pc := e.pc + c } =
        .done r := by
  intro c hc
  induction c, hc using Nat.le_induction with
  | base =>
    intro f e v r hops hv hrun
    have hpc : e.pc < code.ops.length := by
      have := hops 0 (by omega)
      simpa using (List.getElem?_eq_some.mp this).1
    obtain ⟨e', f', rfl, hstep, hrest⟩ := runLoop_peel hrun hpc
    rw [stepOp_dec (by simpa using hops 0 (by omega)) hv] at hstep
    have he' := (Option.some.inj hstep).symm
    subst he'
    refine ⟨f', by omega, ?_⟩
    have h1 : (v + 255) % 256 = (v + 255 * 1) % 256 := by omega
    rw [← h1]
    exact hrest
  | succ n hn ihn =>
    intro f e v r hops hv hrun
    have hpc : e.pc < code.ops.length := by
      have := hops 0 (by omega)
      simpa using (List.getElem?_eq_some.mp this).1
    have hptr : e.pointer < e.data.length := (List.getElem?_eq_some.mp hv).1
    obtain ⟨e', f', rfl, hstep, hrest⟩ := runLoop_peel hrun hpc
    rw [stepOp_dec (by simpa using hops 0 (by omega)) hv] at hstep
    have he' := (Option.some.inj hstep).symm
    subst he'
    obtain ⟨f'', hf'', hdone⟩ := ihn f' _ ((v + 255) % 256) r
      (by
        intro k hk
        have h := hops (k + 1) (by omega)
        have hidx : e.pc + (k + 1) = e.pc + 1 + k := by omega
        rw [hidx] at h
        exact h)
      (by
        simp only
        exact getElem?_set_self_of_lt hptr)
      hrest
    refine ⟨f'', by omega, ?_⟩
    simp only [List.set_set] at hdone
    have h1 : ((v + 255) % 256 + 255 * n) % 256 = (v + 255 * (n + 1)) % 256 := by omega
    have h2 : e.pc + 1 + n = e.pc + (n + 1) := by omega
    rw [h1, h2] at hdone
    exact hdone

theorem run_incptrs {code : Code Op} :
    ∀ (c : Nat), 1 ≤ c → ∀ (f : Nat) (e : Environment) (r : Environment),
    (∀ k, k < c → code.ops[e.pc + k]? = some .IncPtr) →
    runLoop stepOp code f e = .done r →
    ∃ f', f' + c ≤ f ∧ runLoop stepOp code f'
      { e with pointer := e.pointer + c, pc := e.pc + c } = .done r := by
  intro c hc
  induction c, hc using Nat.le_induction with
  | base =>
    intro f e r hops hrun
    have hpc : e.pc < code.ops.length := by
      have := hops 0 (by omega)
      simpa using (List.getElem?_eq_some.mp this).1
    obtain ⟨e', f', rfl, hstep, hrest⟩ := runLoop_peel hrun hpc
    rw [stepOp_incptr (by simpa using hops 0 (by omega))] at hstep
    have he' := (Option.some.inj hstep).symm
    subst he'
    exact ⟨f', by omega, hrest⟩
  | succ n hn ihn =>
    intro f e r hops hrun
    have hpc : e.pc < code.ops.length := by
      have := hops 0 (by omega)
      simpa using (List.getElem?_eq_some.mp this).1
    obtain ⟨e', f', rfl, hstep, hrest⟩ := runLoop_peel hrun hpc
    rw [stepOp_incptr (by simpa using hops 0 (by omega))] at hstep
    have he' := (Option.some.inj hstep).symm
    subst he'
    obtain ⟨f'', hf'', hdone⟩ := ihn f' _ r
      (by
        intro k hk
        have h := hops (k + 1) (by omega)
        have hidx : e.pc + (k + 1) = e.pc + 1 + k := by omega
        rw [hidx] at h
        exact h)
      hrest
    refine ⟨f'', by omega, ?_⟩
    simp only at hdone
    have h1 : e.pointer + 1 + n = e.pointer + (n + 1) := by omega
    have h2 : e.pc + 1 + n = e.pc + (n + 1) := by omega
    rw [h1, h2] at hdone
    exact hdone

theorem run_decptrs {code : Code Op} :
    ∀ (c : Nat), 1 ≤ c → ∀ (f : Nat) (e : Environment) (r : Environment),
    (∀ k, k < c → code.ops[e.pc + k]? = some .DecPtr) →
    runLoop stepOp code f e = .done r →
    c ≤ e.pointer ∧ ∃ f', f' + c ≤ f ∧ runLoop stepOp code f'
      { e with pointer := e.pointer - c, pc := e.pc + c } = .done r := by
  intro c hc
  induction c, hc using Nat.le_induction with
  | base =>
    intro f e r hops hrun
    have hpc : e.pc < code.ops.length := by
      have := hops 0 (by omega)
      simpa using (List.getElem?_eq_some.mp this).1
    obtain ⟨e', f', rfl, hstep, hrest⟩ := runLoop_peel hrun hpc
    have h1 : 1 ≤ e.pointer := by
      by_contra hcon
      rw [stepOp, (by simpa using hops 0 (by omega) : code.ops[e.pc]? = some .DecPtr)]
        at hstep
      simp [Op.run, Environment.sub_ptr, hcon] at hstep
    rw [stepOp_decptr h1 (by simpa using hops 0 (by omega))] at hstep
    have he' := (Option.some.inj hstep).symm
    subst he'
    exact ⟨h1, f', by omega, hrest⟩
  | succ n hn ihn =>
    intro f e r hops hrun
    have hpc : e.pc < code.ops.length := by
      have := hops 0 (by omega)
      simpa using (List.getElem?_eq_some.mp this).1
    obtain ⟨e', f', rfl, hstep, hrest⟩ := runLoop_peel hrun hpc
    have h1 : 1 ≤ e.pointer := by
      by_contra hcon
      rw [stepOp, (by simpa using hops 0 (by omega) : code.ops[e.pc]? = some .DecPtr)]
        at hstep
      simp [Op.run, Environment.sub_ptr, hcon] at hstep
    rw [stepOp_decptr h1 (by simpa using hops 0 (by omega))] at hstep
    have he' := (Option.some.inj hstep).symm
    subst he'
    obtain ⟨hle, f'', hf'', hdone⟩ := ihn f' _ r
      (by
        intro k hk
        have h := hops (k + 1) (by omega)
        have hidx : e.pc + (k + 1) = e.pc + 1 + k := by omega
        rw [hidx] at h
        exact h)
      hrest
    simp only at hle hdone
    refine ⟨by omega, f'', by omega, ?_⟩
    have h1' : e.pointer - 1 - n = e.pointer - (n + 1) := by omega
    have h2 : e.pc + 1 + n = e.pc + (n + 1) := by omega
    rw [h1', h2] at hdone
    exact hdone


theorem stepOp_putchar {code : Code Op} {e : Environment} {v : Nat}
    (hop : code.ops[e.pc]? = some .PutChar) (hv : e.data[e.pointer]? = some v) :
    stepOp code e = some { e with output := e.output ++ [v], pc := e.pc + 1 } := by
  rw [stepOp, hop]
  simp [Op.run, Environment.put_char, hv, Environment.advance_pc]

theorem stepOp_getchar {code : Code Op} {e : Environment}
    (hop : code.ops[e.pc]? = some .GetChar) (hp : e.pointer < e.data.length) :
    stepOp code e = some { e with
      data := e.data.set e.pointer (e.input.headD 0)
      input := e.input.tail
      pc := e.pc + 1 } := by
  rw [stepOp, hop]
  simp [Op.run, Environment.read_char, hp, Environment.advance_pc]

theorem stepOp_loopstart {code : Code Op} {e : Environment} {v tgt : Nat}
    (hop : code.ops[e.pc]? = some .LoopStart) (hv : e.data[e.pointer]? = some v)
    (hjt : code.jump_table[e.pc]? = some tgt) :
    stepOp code e = some (if v = 0 then { e with pc := tgt } else { e with pc := e.pc + 1 }) := by
  rw [stepOp, hop]
  simp only [Op.run, process_loop_start, hv, hjt, Environment.advance_pc]
  split <;> rfl

theorem stepOp_loopend {code : Code Op} {e : Environment} {v tgt : Nat}
    (hop : code.ops[e.pc]? = some .LoopEnd) (hv : e.data[e.pointer]? = some v)
    (hjt : code.jump_table[e.pc]? = some tgt) :
    stepOp code e = some (if v = 0 then { e with pc := e.pc + 1 } else { e with pc := tgt }) := by
  rw [stepOp, hop]
  simp only [Op.run, process_loop_end, hv, hjt, Environment.advance_pc]
  rcases eq_or_ne v 0 with rfl | hv0
  · simp
  · simp [hv0]

theorem stepC_add {code : Code CompressedOp} {e : Environment} {v n : Nat}
    (hop : code.ops[e.pc]? = some (.Add n)) (hv : e.data[e.pointer]? = some v) :
    stepCompressed code e =
      some { e with data := e.data.set e.pointer (wadd v n), pc := e.pc + 1 } := by
  rw [stepCompressed, hop]
  simp [CompressedOp.run, Environment.add, hv, Environment.advance_pc]

theorem stepC_sub {code : Code CompressedOp} {e : Environment} {v n : Nat}
    (hop : code.ops[e.pc]? = some (.Sub n)) (hv : e.data[e.pointer]? = some v) :
    stepCompressed code e =
      some { e with data := e.data.set e.pointer (wsub v n), pc := e.pc + 1 } := by
  rw [stepCompressed, hop]
  simp [CompressedOp.run, Environment.sub, hv, Environment.advance_pc]

theorem stepC_forward {code : Code CompressedOp} {e : Environment} {n : Nat}
    (hop : code.ops[e.pc]? = some (.Forward n)) :
    stepCompressed code e = some { e with pointer := e.pointer + n, pc := e.pc + 1 } := by
  rw [stepCompressed, hop]
  simp [CompressedOp.run, Environment.add_ptr, Environment.advance_pc]

theorem stepC_back {code : Code CompressedOp} {e : Environment} {n : Nat}
    (hop : code.ops[e.pc]? = some (.Back n)) (hn : n ≤ e.pointer) :
    stepCompressed code e = some { e with pointer := e.pointer - n, pc := e.pc + 1 } := by
  rw [stepCompressed, hop]
  simp [CompressedOp.run, Environment.sub_ptr, hn, Environment.advance_pc]

theorem stepC_putchar {code : Code CompressedOp} {e : Environment} {v : Nat}
    (hop : code.ops[e.pc]? = some .PutChar) (hv : e.data[e.pointer]? = some v) :
    stepCompressed code e = some { e with output := e.output ++ [v], pc := e.pc + 1 } := by
  rw [stepCompressed, hop]
  simp [CompressedOp.run, Environment.put_char, hv, Environment.advance_pc]

theorem stepC_getchar {code : Code CompressedOp} {e : Environment}
    (hop : code.ops[e.pc]? = some .GetChar) (hp : e.pointer < e.data.length) :
    stepCompressed code e = some { e with
      data := e.data.set e.pointer (e.input.headD 0)
      input := e.input.tail
      pc := e.pc + 1 } := by
  rw [stepCompressed, hop]
  simp [CompressedOp.run, Environment.read_char, hp, Environment.advance_pc]

theorem stepC_loopstart {code : Code CompressedOp} {e : Environment} {v tgt : Nat}
    (hop : code.ops[e.pc]? = some .LoopStart) (hv : e.data[e.pointer]? = some v)
    (hjt : code.jump_table[e.pc]? = some tgt) :
    stepCompressed code e =
      some (if v = 0 then { e with pc := tgt } else { e with pc := e.pc + 1 }) := by
  rw [stepCompressed, hop]
  simp only [CompressedOp.run, process_loop_start, hv, hjt, Environment.advance_pc]
  split <;> rfl

theorem stepC_loopend {code : Code CompressedOp} {e : Environment} {v tgt : Nat}
    (hop : code.ops[e.pc]? = some .LoopEnd) (hv : e.data[e.pointer]? = some v)
    (hjt : code.jump_table[e.pc]? = some tgt) :
    stepCompressed code e =
      some (if v = 0 then { e with pc := e.pc + 1 } else { e with pc := tgt }) := by
  rw [stepCompressed, hop]
  simp only [CompressedOp.run, process_loop_end, hv, hjt, Environment.advance_pc]
  rcases eq_or_ne v 0 with rfl | hv0
  · simp
  · simp [hv0]

theorem runLoop_cons {α : Type} {step : Code α → Environment → Option Environment}
    {code : Code α} {f : Nat} {e e' r : Environment}
    (hpc : e.pc < code.ops.length) (hstep : step code e = some e')
    (h : runLoop step code f e' = .done r) :
    runLoop step code (f + 1) e = .done r := by
  rw [runLoop.eq_def, if_pos hpc, hstep]
  exact h

/-- The step-by-step simulation: from any raw state sitting on a group
boundary, a completed raw run induces a completed compressed run from the
corresponding compressed state, with identical memory, pointer, input and
output. -/
theorem sim_steps
    (code : Code Op) (ccode : Code CompressedOp) (G : List (Op × Nat))
    (hflat : flatGroups G = code.ops)
    (hcops : ccode.ops = G.map emitOne)
    (hprop : ∀ g ∈ G, 1 ≤ g.2 ∧ (accumCheck g.1 = false → g.2 = 1))
    (hjtc_len : ccode.jump_table.length = G.length)
    (hjt : ∀ g, g < G.length →
      code.jump_table[groupBound G g]? =
        some (groupBound G (ccode.jump_table.getD g 0))) :
    ∀ (f : Nat) (e : Environment) (t : Nat) (r : Environment),
    e.pc = groupBound G t →
    runLoop stepOp code f e = .done r →
    ∃ f' r', runLoop stepCompressed ccode f' { e with pc := t } = .done r' ∧
      r'.data = r.data ∧ r'.pointer = r.pointer ∧ r'.input = r.input ∧
      r'.output = r.output := by
  have hprop1 : ∀ g ∈ G, 1 ≤ g.2 := fun g hg => (hprop g hg).1
  have hlen_ops : code.ops.length = (flatGroups G).length := by rw [hflat]
  have hlen_cops : ccode.ops.length = G.length := by rw [hcops]; simp
  intro f
  induction f using Nat.strong_induction_on with
  | _ f ih =>
    intro e t r hpc hrun
    rcases Nat.lt_or_ge t G.length with ht | ht
    · obtain ⟨g, hGt⟩ : ∃ g, G[t]? = some g := ⟨G[t], List.getElem?_eq_getElem ht⟩
      obtain ⟨o, c⟩ := g
      have hmem := List.getElem?_mem hGt
      have hc1 : 1 ≤ c := (hprop _ hmem).1
      have hBsucc : groupBound G (t + 1) = groupBound G t + c := groupBound_succ hGt
      have hops_at := flat_ops_at hflat hGt
      have hcop_t : ccode.ops[t]? = some (emitOne (o, c)) := by
        rw [hcops, List.getElem?_map, hGt]
        rfl
      have hpc_lt : e.pc < code.ops.length := by
        have h1 := groupBound_lt_succ hprop1 ht
        have h2 := groupBound_le_total G (t + 1)
        omega
      have ht_lt_c : ({ e with pc := t } : Environment).pc < ccode.ops.length := by
        show t < ccode.ops.length
        omega
      have hop0 : code.ops[e.pc]? = some o := by
        rw [hpc]
        simpa using hops_at 0 (by omega)
      cases o with
      | Inc =>
        obtain ⟨e', f', rfl, hstep, hrest⟩ := runLoop_peel hrun hpc_lt
        rcases hv : e.data[e.pointer]? with _ | v
        · exfalso
          rw [stepOp, hop0] at hstep
          simp [Op.run, Environment.add, hv] at hstep
        · obtain ⟨f₁, hf₁, hdone⟩ := run_incs c hc1 (f' + 1) e v r
            (by
              intro k hk
              rw [hpc]
              exact hops_at k hk) hv hrun
          obtain ⟨f₂, r', hcrun, hd, hp, hi, ho⟩ := ih f₁ (by omega) _ (t + 1) r
            (by
              show e.pc + c = groupBound G (t + 1)
              omega) hdone
          have henv : wadd v (c % 256) = (v + c) % 256 := by
            simp only [wadd]
            omega
          have hstepc := stepC_add (e := { e with pc := t }) hcop_t hv
          rw [henv] at hstepc
          exact ⟨f₂ + 1, r', runLoop_cons ht_lt_c hstepc hcrun, hd, hp, hi, ho⟩
      | Dec =>
        obtain ⟨e', f', rfl, hstep, hrest⟩ := runLoop_peel hrun hpc_lt
        rcases hv : e.data[e.pointer]? with _ | v
        · exfalso
          rw [stepOp, hop0] at hstep
          simp [Op.run, Environment.sub, hv] at hstep
        · obtain ⟨f₁, hf₁, hdone⟩ := run_decs c hc1 (f' + 1) e v r
            (by
              intro k hk
              rw [hpc]
              exact hops_at k hk) hv hrun
          obtain ⟨f₂, r', hcrun, hd, hp, hi, ho⟩ := ih f₁ (by omega) _ (t + 1) r
            (by
              show e.pc + c = groupBound G (t + 1)
              omega) hdone
          have henv : wsub v (c % 256) = (v + 255 * c) % 256 := by
            simp only [wsub]
            omega
          have hstepc := stepC_sub (e := { e with pc := t }) hcop_t hv
          rw [henv] at hstepc
          exact ⟨f₂ + 1, r', runLoop_cons ht_lt_c hstepc hcrun, hd, hp, hi, ho⟩
      | IncPtr =>
        obtain ⟨f₁, hf₁, hdone⟩ := run_incptrs c hc1 f e r
          (by
            intro k hk
            rw [hpc]
            exact hops_at k hk) hrun
        have hf_pos : 1 ≤ f := by omega
        obtain ⟨f₂, r', hcrun, hd, hp, hi, ho⟩ := ih f₁ (by omega) _ (t + 1) r
          (by
            show e.pc + c = groupBound G (t + 1)
            omega) hdone
        have hstepc := stepC_forward (e := { e with pc := t }) hcop_t
        exact ⟨f₂ + 1, r', runLoop_cons ht_lt_c hstepc hcrun, hd, hp, hi, ho⟩
      | DecPtr =>
        obtain ⟨hcle, f₁, hf₁, hdone⟩ := run_decptrs c hc1 f e r
          (by
            intro k hk
            rw [hpc]
            exact hops_at k hk) hrun
        obtain ⟨f₂, r', hcrun, hd, hp, hi, ho⟩ := ih f₁ (by omega) _ (t + 1) r
          (by
            show e.pc + c = groupBound G (t + 1)
            omega) hdone
        have hstepc := stepC_back (e := { e with pc := t }) hcop_t hcle
        exact ⟨f₂ + 1, r', runLoop_cons ht_lt_c hstepc hcrun, hd, hp, hi, ho⟩
      | PutChar =>
        have hcacc : c = 1 := (hprop _ hmem).2 rfl
        subst hcacc
        obtain ⟨e', f', rfl, hstep, hrest⟩ := runLoop_peel hrun hpc_lt
        rcases hv : e.data[e.pointer]? with _ | v
        · exfalso
          rw [stepOp, hop0] at hstep
          simp [Op.run, Environment.put_char, hv] at hstep
        · rw [stepOp_putchar hop0 hv] at hstep
          have he' := (Option.some.inj hstep).symm
          subst he'
          obtain ⟨f₂, r', hcrun, hd, hp, hi, ho⟩ := ih f' (by omega) _ (t + 1) r
            (by
              show e.pc + 1 = groupBound G (t + 1)
              omega) hrest
          have hstepc := stepC_putchar (e := { e with pc := t }) hcop_t hv
          exact ⟨f₂ + 1, r', runLoop_cons ht_lt_c hstepc hcrun, hd, hp, hi, ho⟩
      | GetChar =>
        have hcacc : c = 1 := (hprop _ hmem).2 rfl
        subst hcacc
        obtain ⟨e', f', rfl, hstep, hrest⟩ := runLoop_peel hrun hpc_lt
        by_cases hptr : e.pointer < e.data.length
        · rw [stepOp_getchar hop0 hptr] at hstep
          have he' := (Option.some.inj hstep).symm
          subst he'
          obtain ⟨f₂, r', hcrun, hd, hp, hi, ho⟩ := ih f' (by omega) _ (t + 1) r
            (by
              show e.pc + 1 = groupBound G (t + 1)
              omega) hrest
          have hstepc := stepC_getchar (e := { e with pc := t }) hcop_t hptr
          exact ⟨f₂ + 1, r', runLoop_cons ht_lt_c hstepc hcrun, hd, hp, hi, ho⟩
        · exfalso
          rw [stepOp, hop0] at hstep
          simp [Op.run, Environment.read_char, hptr] at hstep
      | LoopStart =>
        have hcacc : c = 1 := (hprop _ hmem).2 rfl
        subst hcacc
        obtain ⟨e', f', rfl, hstep, hrest⟩ := runLoop_peel hrun hpc_lt
        have hjtr : code.jump_table[e.pc]? =
            some (groupBound G (ccode.jump_table.getD t 0)) := by
          rw [hpc]
          exact hjt t ht
        have hjtc_t : ccode.jump_table[t]? = some (ccode.jump_table.getD t 0) := by
          rw [List.getElem?_eq_getElem (show t < ccode.jump_table.length by omega)]
          congr 1
          rw [List.getD_eq_getElem _ 0 (by omega)]
        rcases hv : e.data[e.pointer]? with _ | v
        · exfalso
          rw [stepOp, hop0] at hstep
          simp [Op.run, process_loop_start, hv] at hstep
        · rcases eq_or_ne v 0 with rfl | hv0
          · have hso := stepOp_loopstart hop0 hv hjtr
            rw [if_pos rfl] at hso
            rw [hso] at hstep
            have he' := (Option.some.inj hstep).symm
            subst he'
            obtain ⟨f₂, r', hcrun, hd, hp, hi, ho⟩ :=
              ih f' (by omega) _ (ccode.jump_table.getD t 0) r
              (by
                show groupBound G (ccode.jump_table.getD t 0) =
                  groupBound G (ccode.jump_table.getD t 0)
                rfl) hrest
            have hstepc := stepC_loopstart (e := { e with pc := t }) hcop_t hv hjtc_t
            rw [if_pos rfl] at hstepc
            exact ⟨f₂ + 1, r', runLoop_cons ht_lt_c hstepc hcrun, hd, hp, hi, ho⟩
          · have hso := stepOp_loopstart hop0 hv hjtr
            rw [if_neg hv0] at hso
            rw [hso] at hstep
            have he' := (Option.some.inj hstep).symm
            subst he'
            obtain ⟨f₂, r', hcrun, hd, hp, hi, ho⟩ := ih f' (by omega) _ (t + 1) r
              (by
                show e.pc + 1 = groupBound G (t + 1)
                omega) hrest
            have hstepc := stepC_loopstart (e := { e with pc := t }) hcop_t hv hjtc_t
            rw [if_neg hv0] at hstepc
            exact ⟨f₂ + 1, r', runLoop_cons ht_lt_c hstepc hcrun, hd, hp, hi, ho⟩
      | LoopEnd =>
        have hcacc : c = 1 := (hprop _ hmem).2 rfl
        subst hcacc
        obtain ⟨e', f', rfl, hstep, hrest⟩ := runLoop_peel hrun hpc_lt
        have hjtr : code.jump_table[e.pc]? =
            some (groupBound G (ccode.jump_table.getD t 0)) := by
          rw [hpc]
          exact hjt t ht
        have hjtc_t : ccode.jump_table[t]? = some (ccode.jump_table.getD t 0) := by
          rw [List.getElem?_eq_getElem (show t < ccode.jump_table.length by omega)]
          congr 1
          rw [List.getD_eq_getElem _ 0 (by omega)]
        rcases hv : e.data[e.pointer]? with _ | v
        · exfalso
          rw [stepOp, hop0] at hstep
          simp [Op.run, process_loop_end, hv] at hstep
        · rcases eq_or_ne v 0 with rfl | hv0
          · have hso := stepOp_loopend hop0 hv hjtr
            rw [if_pos rfl] at hso
            rw [hso] at hstep
            have he' := (Option.some.inj hstep).symm
            subst he'
            obtain ⟨f₂, r', hcrun, hd, hp, hi, ho⟩ := ih f' (by omega) _ (t + 1) r
              (by
                show e.pc + 1 = groupBound G (t + 1)
                omega) hrest
            have hstepc := stepC_loopend (e := { e with pc := t }) hcop_t hv hjtc_t
            rw [if_pos rfl] at hstepc
            exact ⟨f₂ + 1, r', runLoop_cons ht_lt_c hstepc hcrun, hd, hp, hi, ho⟩
          · have hso := stepOp_loopend hop0 hv hjtr
            rw [if_neg hv0] at hso
            rw [hso] at hstep
            have he' := (Option.some.inj hstep).symm
            subst he'
            obtain ⟨f₂, r', hcrun, hd, hp, hi, ho⟩ :=
              ih f' (by omega) _ (ccode.jump_table.getD t 0) r
              (by
                show groupBound G (ccode.jump_table.getD t 0) =
                  groupBound G (ccode.jump_table.getD t 0)
                rfl) hrest
            have hstepc := stepC_loopend (e := { e with pc := t }) hcop_t hv hjtc_t
            rw [if_neg hv0] at hstepc
            exact ⟨f₂ + 1, r', runLoop_cons ht_lt_c hstepc hcrun, hd, hp, hi, ho⟩
    · have hBt : groupBound G t = (flatGroups G).length := groupBound_clamp G ht
      have hpc_ge : ¬ e.pc < code.ops.length := by omega
      have hre := runLoop_done_of_ge hrun hpc_ge
      refine ⟨0, { e with pc := t }, ?_, by rw [hre], by rw [hre], by rw [hre], by rw [hre]⟩
      apply runLoop_end
      show ¬ t < ccode.ops.length
      omega

/-- C1: for every well-formed program, running the raw instruction sequence
produced by `parse` and running the compressed sequence produced by
`compress` from the same initial memory, pointer and input stream produce
identical output streams and identical final memory state (the final
pointer and remaining input also coincide). -/
theorem compress_run_equiv (source : List Char) (language : Language)
    (code : Code Op) (ccode : Code CompressedOp) (e r : Environment) (fuel : Nat)
    (hwf : WellFormedSource source language)
    (hp : parse source language = some code)
    (hc : compress code = some ccode)
    (hpc : e.pc = 0)
    (hrun : runOp code fuel e = .done r) :
    ∃ fuel' r', runCompressed ccode fuel' e = .done r' ∧
      r'.output = r.output ∧ r'.data = r.data ∧
      r'.pointer = r.pointer ∧ r'.input = r.input := by
  obtain ⟨hopsR, hkindsR, stR, hfoldR⟩ := parse_some_shape hp
  obtain ⟨hopsC, hkindsC, stC, hfoldC⟩ := compress_some_shape hc
  have hflat : flatGroups (opGroups code.ops) = code.ops := flatGroups_opGroups code.ops
  have hpropG := opGroups_prop code.ops
  have hprop1 : ∀ g ∈ opGroups code.ops, 1 ≤ g.2 := fun g hg => (hpropG g hg).1
  have hkinds_eq : tokenKinds source language =
      (flatGroups (opGroups code.ops)).map opKind := by
    rw [hflat, ← hkindsR]
  have hpar := parallel_fold (opGroups code.ops) hpropG (opGroups code.ops) [] []
    (List.replicate (opGroups code.ops).length 0)
    (List.replicate (flatGroups (opGroups code.ops)).length 0)
    (by simp) (by simp) (by simp)
    (by
      intro g hg
      have h1 : groupBound (opGroups code.ops) g <
          (flatGroups (opGroups code.ops)).length := by
        have ha := groupBound_lt_succ hprop1 hg
        have hb := groupBound_le_total (opGroups code.ops) (g + 1)
        omega
      rw [List.getElem?_replicate, if_pos h1, getD_replicate_zero, groupBound_zero])
    (by simp)
  simp only [List.length_nil, groupBound_zero, List.map_nil] at hpar
  have hfoldC' : jtFold ((opGroups code.ops).map groupKind) 0 []
      (List.replicate (opGroups code.ops).length 0) = some (ccode.jump_table, stC) := by
    have hlen : ((opGroups code.ops).map groupKind).length =
        (opGroups code.ops).length := by simp
    rw [← hlen]
    exact hfoldC
  rw [hkinds_eq] at hfoldR
  simp only [List.length_map] at hfoldR
  rcases hpar with ⟨hgn, _⟩ | ⟨jg', sg', jr', hg_some, hr_some, hlenjg, hlenjr, hd⟩
  · rw [hfoldC'] at hgn
    exact Option.noConfusion hgn
  · have hpairC := Option.some.inj (hfoldC'.symm.trans hg_some)
    have hjg : jg' = ccode.jump_table := by
      have := congrArg Prod.fst hpairC
      simpa using this.symm
    have hpairR := Option.some.inj (hfoldR.symm.trans hr_some)
    have hjr : jr' = code.jump_table := by
      have := congrArg Prod.fst hpairR
      simpa using this.symm
    subst hjg
    subst hjr
    have hsim := sim_steps code ccode (opGroups code.ops) hflat hopsC hpropG hlenjg hd
      fuel e 0 r (by rw [hpc, groupBound_zero]) hrun
    obtain ⟨f', r', hcrun, hdata, hptr, hinp, hout⟩ := hsim
    have he_eq : ({ e with pc := 0 } : Environment) = e := by
      obtain ⟨d0, p0, pt0, i0, o0⟩ := e
      simp only at hpc
      rw [hpc]
    rw [he_eq] at hcrun
    exact ⟨f', r', hcrun, hout, hdata, hptr, hinp⟩

/-! ## Concrete witnesses -/

/-- Witness for C1: the program `+[-].` run raw and compressed from a fresh
one-cell memory produces the same output `[0]` and memory `[0]`. -/
theorem compress_run_equiv_witness :
    ∃ fuel' r', runCompressed
      ⟨[.Add 1, .LoopStart, .Sub 1, .LoopEnd, .PutChar], [0, 4, 0, 2, 0]⟩
      fuel' { data := [0], pc := 0, pointer := 0, input := [], output := [] } =
        .done r' ∧
      r'.output = [0] ∧ r'.data = [0] ∧ r'.pointer = 0 ∧ r'.input = [] :=
  compress_run_equiv ['+', '[', '-', ']', '.'] defaultLanguage
    ⟨[.Inc, .LoopStart, .Dec, .LoopEnd, .PutChar], [0, 4, 0, 2, 0]⟩
    ⟨[.Add 1, .LoopStart, .Sub 1, .LoopEnd, .PutChar], [0, 4, 0, 2, 0]⟩
    { data := [0], pc := 0, pointer := 0, input := [], output := [] }
    { data := [0], pc := 5, pointer := 0, input := [], output := [0] }
    10 (by decide) rfl rfl rfl rfl

/-- Witness for C2: the program `[+]` parses to jump table `[3, 0, 1]` and
compresses to jump table `[3, 0, 1]`, both satisfying the matched-pair
specification. -/
theorem jump_table_spec_witness :
    (∀ i j, Matched (List.map opKind [Op.LoopStart, Op.Inc, Op.LoopEnd]) i j →
        ([3, 0, 1] : List Nat)[i]? = some (j + 1) ∧
        ([3, 0, 1] : List Nat)[j]? = some (i + 1)) ∧
    (∀ i j, Matched (List.map copKind
        [CompressedOp.LoopStart, CompressedOp.Add 1, CompressedOp.LoopEnd]) i j →
        ([3, 0, 1] : List Nat)[i]? = some (j + 1) ∧
        ([3, 0, 1] : List Nat)[j]? = some (i + 1)) :=
  ⟨(jump_table_spec ['[', '+', ']'] defaultLanguage
      ⟨[Op.LoopStart, Op.Inc, Op.LoopEnd], [3, 0, 1]⟩
      ⟨[CompressedOp.LoopStart, CompressedOp.Add 1, CompressedOp.LoopEnd], [3, 0, 1]⟩
      (by decide) rfl rfl).1.1,
    (jump_table_spec ['[', '+', ']'] defaultLanguage
      ⟨[Op.LoopStart, Op.Inc, Op.LoopEnd], [3, 0, 1]⟩
      ⟨[CompressedOp.LoopStart, CompressedOp.Add 1, CompressedOp.LoopEnd], [3, 0, 1]⟩
      (by decide) rfl rfl).2.1⟩

/-- Witness for C3: `.+++,` compresses so that the maximal `Inc` run of
length 3 becomes the single `Add 3` while the surrounding `PutChar` and
`GetChar` stay separate. -/
theorem compress_merge_spec_witness :
    (⟨[CompressedOp.PutChar, CompressedOp.Add 3, CompressedOp.GetChar],
      [0, 0, 0]⟩ : Code CompressedOp).ops =
      emitOps [Op.PutChar] ++ [emitOne (Op.Inc, 3)] ++ emitOps [Op.GetChar] :=
  (compress_merge_spec
    ⟨[Op.PutChar, Op.Inc, Op.Inc, Op.Inc, Op.GetChar], [0, 0, 0, 0, 0]⟩
    ⟨[CompressedOp.PutChar, CompressedOp.Add 3, CompressedOp.GetChar], [0, 0, 0]⟩
    [Op.PutChar] [Op.GetChar] Op.Inc 3 rfl rfl (by omega)).1 rfl (by decide) (by decide)

/-- Witness for C5: a cell at 255 receiving `Inc` wraps to 0. -/
theorem arithmetic_wraparound_witness :
    stepOp ⟨[Op.Inc], [0]⟩ { data := [255], pc := 0, pointer := 0, input := [], output := [] } =
      some { data := [0], pc := 1, pointer := 0, input := [], output := [] } :=
  (arithmetic_wraparound ⟨[Op.Inc], [0]⟩ ⟨[CompressedOp.Add 1], [0]⟩
    { data := [255], pc := 0, pointer := 0, input := [], output := [] } 255 rfl).1 rfl rfl

/-- Witness for C6: `GetChar` at end of input sets the cell to 0 and
continues. -/
theorem read_byte_eof_witness :
    stepOp ⟨[Op.GetChar], [0]⟩
      { data := [5], pc := 0, pointer := 0, input := [], output := [] } =
      some { data := [0], pc := 1, pointer := 0, input := [], output := [] } :=
  ((read_byte_eof ⟨[Op.GetChar], [0]⟩ ⟨[CompressedOp.GetChar], [0]⟩
    { data := [5], pc := 0, pointer := 0, input := [], output := [] }
    (by decide)).1 rfl).2 rfl

/-- Witness for C7: `parse` aborts on the source `]` and `compress` aborts
on the raw sequence `[LoopEnd]`. -/
theorem unmatched_close_aborts_witness :
    parse [']'] defaultLanguage = none ∧
    compress ⟨[Op.LoopEnd], [0]⟩ = none :=
  ⟨unmatched_close_aborts.1 [']'] defaultLanguage (by decide),
    unmatched_close_aborts.2 ⟨[Op.LoopEnd], [0]⟩ (by decide)⟩

/-- Witness for C8 (amended): the source `[[` with two unmatched loop starts
parses successfully with zeroed jump-table entries at the unmatched
positions. -/
theorem unmatched_open_silent_witness :
    ∃ code, parse ['[', '['] defaultLanguage = some code ∧
      ∀ p, (code.ops.map opKind)[p]? = some .bo →
        (¬ ∃ j, Matched (code.ops.map opKind) p j) →
        code.jump_table[p]? = some 0 :=
  unmatched_open_silent ['[', '['] defaultLanguage (by decide) (by decide)

/-- Witness for C9: eight duplicated symbols still build a symbol table,
assigned positionally. -/
theorem make_from_string_spec_witness :
    Language.make_from_string ['a', 'a', 'a', 'a', 'a', 'a', 'a', 'a'] =
      some { inc := 'a', dec := 'a', inc_ptr := 'a', dec_ptr := 'a',
             get_char := 'a', put_char := 'a', loop_start := 'a', loop_end := 'a' } :=
  (make_from_string_spec ['a', 'a', 'a', 'a', 'a', 'a', 'a', 'a']).2
    'a' 'a' 'a' 'a' 'a' 'a' 'a' 'a' rfl

/-- Witness for C10: `DecPtr` with the pointer at 0 faults (usize
underflow), as the characterization predicts. -/
theorem step_fault_characterization_witness :
    stepOp ⟨[Op.DecPtr], [0]⟩
      { data := [0], pc := 0, pointer := 0, input := [], output := [] } = none :=
  (step_fault_characterization.1 ⟨[Op.DecPtr], [0]⟩
    { data := [0], pc := 0, pointer := 0, input := [], output := [] }
    Op.DecPtr rfl rfl).mpr (Or.inr ⟨rfl, rfl⟩)

end Bfk
